import Mathlib

/-!
Shallow embedding of the settlement core of
`src/app/api/trips/[tripId]/settle/route.ts`: the balance computation of the
GET handler (lines 162-182) and the greedy debt-simplification algorithm
`simplifyDebts` (lines 36-68).

Modelling choices:

* JavaScript numbers are modelled as exact rationals (`ℚ`);
  `Math.round (x * 100) / 100` becomes `round2`.
* The `while` loop of `simplifyDebts` is modelled with explicit fuel
  (`simplifyLoop`), because for some inputs neither cursor advances and the
  loop runs forever; `none` means the loop has not finished within the given
  number of iterations.  Whether the loop stalls on a boundary input (a
  residual equal to exactly `0.01`) depends on binary64 rounding in the
  source, which exact rational arithmetic does not reproduce, so the model's
  termination behaviour can differ from the program's at such inputs.
* `Array.prototype.filter` returns an array of references to the caller's
  objects, so the assignments `creditor.balance -= settleAmount` and
  `debtor.balance += settleAmount` (lines 58-59) write through to the
  caller's balance records.  The model therefore returns, next to the
  transaction list, the final states of the creditor records and of the
  debtor records, in order: these are the values the caller's records hold
  after the call.
* `Array.prototype.sort` is stable (ECMAScript 2019); a stable sort by a
  total preorder has a unique result, so it is modelled by the stable
  `List.insertionSort`.
-/

namespace TripSplit

/-- The user record selected by the route (`id`, `name`, `email`, `upiId`). -/
structure User where
  id : String
  name : String
  email : String
  upiId : String
deriving DecidableEq, Repr

/-- The `UserBalance` record built by the GET handler (lines 22-33). -/
structure UserBalance where
  userId : String
  user : User
  totalPaid : ℚ
  share : ℚ
  balance : ℚ
deriving DecidableEq, Repr

/-- The `SettlementTransaction` record (lines 6-20).  `from` is a Lean
keyword, so the payer field is called `from_`. -/
structure SettlementTransaction where
  from_ : User
  to_ : User
  amount : ℚ
deriving DecidableEq, Repr

/-- The expense record as used by the settlement computation: an amount and
the `paidBy` user it was joined with. -/
structure Expense where
  amount : ℚ
  paidBy : User
deriving DecidableEq, Repr

/-- `Math.round (x * 100) / 100` (lines 55 and 180).  JavaScript
`Math.round` rounds half toward positive infinity, i.e. `⌊x + 1/2⌋` on
exact values. -/
def round2 (x : ℚ) : ℚ := (⌊x * 100 + 1/2⌋ : ℚ) / 100

/-- The body of the `while` loop of `simplifyDebts` (lines 43-65), with
explicit fuel.  The two list arguments are the parts of the creditor and
debtor arrays from the cursors `i` and `j` on; the result components are
the emitted transactions, the final states of the creditor records and the
final states of the debtor records (the entries the cursors moved past keep
the mutated values they had at that moment). -/
def simplifyLoop :
    Nat → List UserBalance → List UserBalance →
      Option (List SettlementTransaction × List UserBalance × List UserBalance)
  | _, [], ds => some ([], [], ds)
  | _, c :: cs, [] => some ([], c :: cs, [])
  | 0, _ :: _, _ :: _ => none
  | fuel + 1, c :: cs, d :: ds =>
    let settleAmount := min c.balance |d.balance|
    let txs₀ : List SettlementTransaction :=
      if settleAmount > 1/100 then [⟨d.user, c.user, round2 settleAmount⟩] else []
    let c' : UserBalance :=
      if settleAmount > 1/100 then { c with balance := c.balance - settleAmount } else c
    let d' : UserBalance :=
      if settleAmount > 1/100 then { d with balance := d.balance + settleAmount } else d
    if c'.balance < 1/100 then
      if |d'.balance| < 1/100 then
        (simplifyLoop fuel cs ds).map fun r => (txs₀ ++ r.1, c' :: r.2.1, d' :: r.2.2)
      else
        (simplifyLoop fuel cs (d' :: ds)).map fun r => (txs₀ ++ r.1, c' :: r.2.1, r.2.2)
    else
      if |d'.balance| < 1/100 then
        (simplifyLoop fuel (c' :: cs) ds).map fun r => (txs₀ ++ r.1, r.2.1, d' :: r.2.2)
      else
        (simplifyLoop fuel (c' :: cs) (d' :: ds)).map fun r => (txs₀ ++ r.1, r.2.1, r.2.2)

/-- `simplifyDebts` (lines 36-68): filter out creditors (balance above one
cent) and debtors (balance below minus one cent), sort them by magnitude
(descending for creditors, ascending for debtors; both sorts stable), and
run the greedy matching loop.  `fuel` bounds the number of loop iterations;
`none` means the loop has not terminated within `fuel` iterations. -/
def simplifyDebts (fuel : Nat) (balances : List UserBalance) :
    Option (List SettlementTransaction × List UserBalance × List UserBalance) :=
  let creditors := List.insertionSort (fun a b => b.balance ≤ a.balance)
    (balances.filter fun b => b.balance > 1/100)
  let debtors := List.insertionSort (fun a b => a.balance ≤ b.balance)
    (balances.filter fun b => b.balance < -(1/100))
  simplifyLoop fuel creditors debtors

/-- The balance computation of the GET handler (lines 162-182): total cost,
per-person share (with the `memberCount > 0` guard of line 165), and one
rounded balance record per member, in member order. -/
def computeBalances (uniqueMembers : List User) (expenses : List Expense) :
    List UserBalance :=
  let totalExpenses := expenses.foldl (fun sum expense => sum + expense.amount) 0
  let memberCount := uniqueMembers.length
  let perPersonShare : ℚ := if memberCount > 0 then totalExpenses / memberCount else 0
  uniqueMembers.map fun member =>
    let totalPaid := (expenses.filter fun expense => expense.paidBy.id = member.id).foldl
      (fun sum expense => sum + expense.amount) 0
    let balance := totalPaid - perPersonShare
    { userId := member.id, user := member, totalPaid := totalPaid,
      share := perPersonShare, balance := round2 balance }

/-! ## Specification-side definitions

These definitions follow the wording of the specification, not the source;
they are used to state the claims about the source functions above. -/

/-- Modelled from the spec: applying one settlement transaction to a balance
list decreases the payer's outstanding debt and the payee's outstanding
credit by the transaction amount, i.e. adds the amount to the payer's
balance and subtracts it from the payee's. -/
def applyTransaction (bs : List UserBalance) (t : SettlementTransaction) :
    List UserBalance :=
  bs.map fun b =>
    if b.user = t.from_ then { b with balance := b.balance + t.amount }
    else if b.user = t.to_ then { b with balance := b.balance - t.amount }
    else b

/-- Modelled from the spec: applying every transaction of a settlement plan
in order. -/
def applyTransactions (bs : List UserBalance) (txs : List SettlementTransaction) :
    List UserBalance :=
  txs.foldl applyTransaction bs

/-- The sum of the balance fields of a balance list. -/
def sumBal (bs : List UserBalance) : ℚ := (bs.map (fun b => b.balance)).sum

/-- The net amount a user pays under a transaction list: what they pay as
payer minus what they receive as payee.  Applying the transactions adds this
value to the user's balance. -/
def netTransfer (u : User) (txs : List SettlementTransaction) : ℚ :=
  ((txs.filter fun t => t.from_ = u).map (fun t => t.amount)).sum
    - ((txs.filter fun t => t.to_ = u).map (fun t => t.amount)).sum

/-- A rational is a whole number of cents (an integer multiple of `1/100`),
as every balance produced by `computeBalances` is. -/
def centMultiple (q : ℚ) : Prop := ∃ k : ℤ, q = (k : ℚ) / 100

/-- Spec-side total paid by a participant: the sum of the amounts of the
expenses whose payer resolves to that participant. -/
def totalPaidOf (p : User) (expenses : List Expense) : ℚ :=
  ((expenses.filter fun e => e.paidBy.id = p.id).map (fun e => e.amount)).sum

/-- Spec-side total cost: the sum of all expense amounts. -/
def totalAmount (expenses : List Expense) : ℚ :=
  (expenses.map (fun e => e.amount)).sum

/-- Modelled from the spec: rounding to two decimal places with ties going
away from zero, one of the two rounding modes the spec allows. -/
def roundAwayFromZero2 (x : ℚ) : ℚ :=
  if 0 ≤ x then (⌊x * 100 + 1/2⌋ : ℚ) / 100 else -((⌊-(x * 100) + 1/2⌋ : ℚ) / 100)

/-- Modelled from the spec: rounding to two decimal places with ties going
to the even cent (banker's rounding), the other rounding mode the spec
allows. -/
def roundHalfEven2 (x : ℚ) : ℚ :=
  let y := x * 100
  if y - ⌊y⌋ = 1/2 then
    (if 2 ∣ ⌊y⌋ then (⌊y⌋ : ℚ) / 100 else ((⌊y⌋ + 1 : ℤ) : ℚ) / 100)
  else (⌊y + 1/2⌋ : ℚ) / 100

/-! ## Helper lemmas -/

@[simp]
theorem netTransfer_nil (u : User) : netTransfer u [] = 0 := by
  simp [netTransfer]

theorem netTransfer_append (u : User) (l₁ l₂ : List SettlementTransaction) :
    netTransfer u (l₁ ++ l₂) = netTransfer u l₁ + netTransfer u l₂ := by
  simp [netTransfer, List.filter_append]
  ring

@[simp]
theorem sumBal_nil : sumBal [] = 0 := rfl

@[simp]
theorem sumBal_cons (b : UserBalance) (l : List UserBalance) :
    sumBal (b :: l) = b.balance + sumBal l := by
  simp [sumBal]

theorem sumBal_perm {l l' : List UserBalance} (h : l.Perm l') : sumBal l = sumBal l' := by
  simp only [sumBal]
  exact (h.map fun b => b.balance).sum_eq

theorem sumBal_nonneg {l : List UserBalance} (h0 : ∀ y ∈ l, 0 ≤ y.balance) :
    0 ≤ sumBal l := by
  induction l with
  | nil => simp
  | cons y l ih =>
    have hy := h0 y (by simp)
    have := ih fun w hw => h0 w (List.mem_cons_of_mem _ hw)
    simp only [sumBal_cons]
    linarith

theorem le_sumBal_of_mem {l : List UserBalance} {x : UserBalance}
    (h0 : ∀ y ∈ l, 0 ≤ y.balance) (hx : x ∈ l) : x.balance ≤ sumBal l := by
  induction l with
  | nil => cases hx
  | cons y l ih =>
    rcases List.mem_cons.mp hx with rfl | hx
    · have : 0 ≤ sumBal l := sumBal_nonneg fun w hw => h0 w (List.mem_cons_of_mem _ hw)
      simp only [sumBal_cons]
      linarith
    · have := ih (fun w hw => h0 w (List.mem_cons_of_mem _ hw)) hx
      have hy := h0 y (by simp)
      simp only [sumBal_cons]
      linarith

theorem sumBal_of_all_zero {l : List UserBalance}
    (h : ∀ y ∈ l, y.balance = 0) : sumBal l = 0 := by
  induction l with
  | nil => simp
  | cons y l ih =>
    simp only [sumBal_cons, h y (by simp), zero_add]
    exact ih fun w hw => h w (List.mem_cons_of_mem _ hw)

theorem centMultiple_add {a b : ℚ} (ha : centMultiple a) (hb : centMultiple b) :
    centMultiple (a + b) := by
  obtain ⟨k, rfl⟩ := ha
  obtain ⟨m, rfl⟩ := hb
  exact ⟨k + m, by push_cast; ring⟩

theorem centMultiple_neg {a : ℚ} (ha : centMultiple a) : centMultiple (-a) := by
  obtain ⟨k, rfl⟩ := ha
  exact ⟨-k, by push_cast; ring⟩

theorem centMultiple_sub {a b : ℚ} (ha : centMultiple a) (hb : centMultiple b) :
    centMultiple (a - b) := by
  rw [sub_eq_add_neg]
  exact centMultiple_add ha (centMultiple_neg hb)

theorem centMultiple_abs {a : ℚ} (ha : centMultiple a) : centMultiple |a| := by
  rcases abs_choice a with h | h
  · rwa [h]
  · rw [h]; exact centMultiple_neg ha

theorem centMultiple_min {a b : ℚ} (ha : centMultiple a) (hb : centMultiple b) :
    centMultiple (min a b) := by
  rcases min_choice a b with h | h <;> rw [h] <;> assumption

/-- Rounding to cents is the identity on whole-cent values. -/
theorem round2_centMultiple {q : ℚ} (h : centMultiple q) : round2 q = q := by
  obtain ⟨k, rfl⟩ := h
  have h100 : ((k : ℚ) / 100) * 100 = (k : ℚ) := by
    field_simp
  have hfl : ⌊(k : ℚ) + 1/2⌋ = k := by
    rw [Int.floor_int_add]
    norm_num
  rw [round2, h100, hfl]

/-- A whole-cent value in `[0, 1/100)` is zero. -/
theorem centMultiple_eq_zero {q : ℚ} (h : centMultiple q) (h0 : 0 ≤ q)
    (h1 : q < 1/100) : q = 0 := by
  obtain ⟨k, rfl⟩ := h
  have hk0 : (0 : ℤ) ≤ k := by
    by_contra hneg
    push_neg at hneg
    have hq : ((k : ℚ)) < 0 := by exact_mod_cast hneg
    have : ((k : ℚ) / 100) < 0 := by linarith
    linarith
  have hk1 : k < 1 := by
    by_contra hge
    push_neg at hge
    have hq : (1 : ℚ) ≤ (k : ℚ) := by exact_mod_cast hge
    have : (1 : ℚ) / 100 ≤ (k : ℚ) / 100 := by linarith
    linarith
  have : k = 0 := by omega
  simp [this]

/-- The rounded amount of an emitted transaction is at least one cent. -/
theorem round2_ge_cent {s : ℚ} (h : s > 1/100) : 1/100 ≤ round2 s := by
  have h1 : (1 : ℤ) ≤ ⌊s * 100 + 1/2⌋ := by
    rw [Int.le_floor]
    push_cast
    nlinarith
  rw [round2]
  have : (1 : ℚ) ≤ (⌊s * 100 + 1/2⌋ : ℚ) := by exact_mod_cast h1
  linarith

/-- Every transaction emitted by the greedy loop has amount at least one
cent (the loop only emits when the unrounded amount exceeds one cent, and
rounding such an amount cannot go below one cent). -/
theorem simplifyLoop_amount_lower :
    ∀ (fuel : Nat) (cs ds : List UserBalance) (txs : List SettlementTransaction)
      (fcs fds : List UserBalance),
      simplifyLoop fuel cs ds = some (txs, fcs, fds) →
      ∀ t ∈ txs, 1/100 ≤ t.amount := by
  intro fuel
  induction fuel with
  | zero =>
    rintro (_ | ⟨c, cs⟩) (_ | ⟨d, ds⟩) txs fcs fds h t ht
    · simp only [simplifyLoop, Option.some.injEq, Prod.mk.injEq] at h
      obtain ⟨rfl, rfl, rfl⟩ := h; cases ht
    · simp only [simplifyLoop, Option.some.injEq, Prod.mk.injEq] at h
      obtain ⟨rfl, rfl, rfl⟩ := h; cases ht
    · simp only [simplifyLoop, Option.some.injEq, Prod.mk.injEq] at h
      obtain ⟨rfl, rfl, rfl⟩ := h; cases ht
    · simp [simplifyLoop] at h
  | succ fuel ih =>
    rintro (_ | ⟨c, cs⟩) (_ | ⟨d, ds⟩) txs fcs fds h t ht
    · simp only [simplifyLoop, Option.some.injEq, Prod.mk.injEq] at h
      obtain ⟨rfl, rfl, rfl⟩ := h; cases ht
    · simp only [simplifyLoop, Option.some.injEq, Prod.mk.injEq] at h
      obtain ⟨rfl, rfl, rfl⟩ := h; cases ht
    · simp only [simplifyLoop, Option.some.injEq, Prod.mk.injEq] at h
      obtain ⟨rfl, rfl, rfl⟩ := h; cases ht
    · simp only [simplifyLoop] at h
      split at h <;> split at h <;> split at h <;>
        rw [Option.map_eq_some'] at h <;>
        obtain ⟨⟨txs', fcs', fds'⟩, hrec, heq⟩ := h <;>
        (simp only [Prod.mk.injEq] at heq; obtain ⟨rfl, rfl, rfl⟩ := heq)
      all_goals rcases List.mem_append.mp ht with h0 | h1
      all_goals first
        | exact ih _ _ _ _ _ hrec t h1
        | exact absurd h0 (List.not_mem_nil _)
        | (simp only [List.mem_singleton] at h0; subst h0;
           exact round2_ge_cent (by assumption))

/-- Invariant induction for the greedy loop, assuming the sign discipline
established by the initial filters (creditor entries nonnegative, debtor
entries nonpositive): the number of emitted transactions is at most
`creditors + debtors - 1` (each emitting iteration zeroes at least one of
the two current entries, so it advances at least one cursor), final
creditor records stay nonnegative, final debtor records stay nonpositive,
and the loop preserves the total of all balances. -/
theorem simplifyLoop_main :
    ∀ (fuel : Nat) (cs ds : List UserBalance) (txs : List SettlementTransaction)
      (fcs fds : List UserBalance),
      simplifyLoop fuel cs ds = some (txs, fcs, fds) →
      (∀ b ∈ cs, 0 ≤ b.balance) → (∀ b ∈ ds, b.balance ≤ 0) →
      txs.length ≤ cs.length + ds.length - 1 ∧
      (∀ b ∈ fcs, 0 ≤ b.balance) ∧ (∀ b ∈ fds, b.balance ≤ 0) ∧
      sumBal fcs + sumBal fds = sumBal cs + sumBal ds := by
  intro fuel
  induction fuel with
  | zero =>
    rintro (_ | ⟨c, cs⟩) (_ | ⟨d, ds⟩) txs fcs fds h hcs hds
    · simp only [simplifyLoop, Option.some.injEq, Prod.mk.injEq] at h
      obtain ⟨rfl, rfl, rfl⟩ := h
      exact ⟨by simp, by simp, hds, rfl⟩
    · simp only [simplifyLoop, Option.some.injEq, Prod.mk.injEq] at h
      obtain ⟨rfl, rfl, rfl⟩ := h
      exact ⟨by simp, by simp, hds, rfl⟩
    · simp only [simplifyLoop, Option.some.injEq, Prod.mk.injEq] at h
      obtain ⟨rfl, rfl, rfl⟩ := h
      exact ⟨by simp, hcs, by simp, rfl⟩
    · simp [simplifyLoop] at h
  | succ fuel ih =>
    rintro (_ | ⟨c, cs⟩) (_ | ⟨d, ds⟩) txs fcs fds h hcs hds
    · simp only [simplifyLoop, Option.some.injEq, Prod.mk.injEq] at h
      obtain ⟨rfl, rfl, rfl⟩ := h
      exact ⟨by simp, by simp, hds, rfl⟩
    · simp only [simplifyLoop, Option.some.injEq, Prod.mk.injEq] at h
      obtain ⟨rfl, rfl, rfl⟩ := h
      exact ⟨by simp, by simp, hds, rfl⟩
    · simp only [simplifyLoop, Option.some.injEq, Prod.mk.injEq] at h
      obtain ⟨rfl, rfl, rfl⟩ := h
      exact ⟨by simp, hcs, by simp, rfl⟩
    · simp only [simplifyLoop] at h
      have hc0 : 0 ≤ c.balance := hcs c (by simp)
      have hd0 : d.balance ≤ 0 := hds d (by simp)
      have hcs' : ∀ b ∈ cs, 0 ≤ b.balance := fun b hb => hcs b (List.mem_cons_of_mem _ hb)
      have hds' : ∀ b ∈ ds, b.balance ≤ 0 := fun b hb => hds b (List.mem_cons_of_mem _ hb)
      have habs : |d.balance| = -d.balance := abs_of_nonpos hd0
      have hs_le_c : min c.balance |d.balance| ≤ c.balance := min_le_left _ _
      have hs_le_d : min c.balance |d.balance| ≤ |d.balance| := min_le_right _ _
      split at h
      case isTrue hemit =>
        have hc' : (0:ℚ) ≤ c.balance - min c.balance |d.balance| := by linarith
        have hd' : d.balance + min c.balance |d.balance| ≤ 0 := by
          have h2 : min c.balance |d.balance| ≤ -d.balance := hs_le_d.trans_eq habs
          linarith
        split at h
        case isTrue hadvC =>
          split at h
          case isTrue hadvD =>
            rw [Option.map_eq_some'] at h
            obtain ⟨⟨txs', fcs', fds'⟩, hrec, heq⟩ := h
            simp only [Prod.mk.injEq] at heq
            obtain ⟨rfl, rfl, rfl⟩ := heq
            obtain ⟨hlen, hfcs, hfds, hsum⟩ := ih cs ds _ _ _ hrec hcs' hds'
            refine ⟨?_, ?_, ?_, ?_⟩
            · simp only [List.length_append, List.length_cons, List.length_nil]
              omega
            · intro b hb
              rcases List.mem_cons.mp hb with rfl | hb
              · exact hc'
              · exact hfcs b hb
            · intro b hb
              rcases List.mem_cons.mp hb with rfl | hb
              · exact hd'
              · exact hfds b hb
            · have e1 : ({ c with balance := c.balance - min c.balance |d.balance| } :
                  UserBalance).balance = c.balance - min c.balance |d.balance| := rfl
              have e2 : ({ d with balance := d.balance + min c.balance |d.balance| } :
                  UserBalance).balance = d.balance + min c.balance |d.balance| := rfl
              simp only [sumBal_cons]
              linarith [hsum, e1, e2]
          case isFalse hadvD =>
            rw [Option.map_eq_some'] at h
            obtain ⟨⟨txs', fcs', fds'⟩, hrec, heq⟩ := h
            simp only [Prod.mk.injEq] at heq
            obtain ⟨rfl, rfl, rfl⟩ := heq
            have hdsrec : ∀ b ∈ ({ d with balance := d.balance + min c.balance |d.balance| } :: ds),
                b.balance ≤ 0 := by
              intro b hb
              rcases List.mem_cons.mp hb with rfl | hb
              · exact hd'
              · exact hds' b hb
            obtain ⟨hlen, hfcs, hfds, hsum⟩ := ih cs _ _ _ _ hrec hcs' hdsrec
            refine ⟨?_, ?_, ?_, ?_⟩
            · simp only [List.length_append, List.length_cons, List.length_nil] at *
              omega
            · intro b hb
              rcases List.mem_cons.mp hb with rfl | hb
              · exact hc'
              · exact hfcs b hb
            · exact hfds
            · have e1 : ({ c with balance := c.balance - min c.balance |d.balance| } :
                  UserBalance).balance = c.balance - min c.balance |d.balance| := rfl
              have e2 : ({ d with balance := d.balance + min c.balance |d.balance| } :
                  UserBalance).balance = d.balance + min c.balance |d.balance| := rfl
              simp only [sumBal_cons] at hsum ⊢
              linarith [hsum, e1, e2]
        case isFalse hadvC =>
          split at h
          case isTrue hadvD =>
            rw [Option.map_eq_some'] at h
            obtain ⟨⟨txs', fcs', fds'⟩, hrec, heq⟩ := h
            simp only [Prod.mk.injEq] at heq
            obtain ⟨rfl, rfl, rfl⟩ := heq
            have hcsrec : ∀ b ∈ ({ c with balance := c.balance - min c.balance |d.balance| } :: cs),
                0 ≤ b.balance := by
              intro b hb
              rcases List.mem_cons.mp hb with rfl | hb
              · exact hc'
              · exact hcs' b hb
            obtain ⟨hlen, hfcs, hfds, hsum⟩ := ih _ ds _ _ _ hrec hcsrec hds'
            refine ⟨?_, ?_, ?_, ?_⟩
            · simp only [List.length_append, List.length_cons, List.length_nil] at *
              omega
            · exact hfcs
            · intro b hb
              rcases List.mem_cons.mp hb with rfl | hb
              · exact hd'
              · exact hfds b hb
            · have e1 : ({ c with balance := c.balance - min c.balance |d.balance| } :
                  UserBalance).balance = c.balance - min c.balance |d.balance| := rfl
              have e2 : ({ d with balance := d.balance + min c.balance |d.balance| } :
                  UserBalance).balance = d.balance + min c.balance |d.balance| := rfl
              simp only [sumBal_cons] at hsum ⊢
              linarith [hsum, e1, e2]
          case isFalse hadvD =>
            exfalso
            rcases min_choice c.balance |d.balance| with hm | hm
            · refine hadvC ?_
              show c.balance - min c.balance |d.balance| < 1/100
              rw [hm]
              norm_num
            · refine hadvD ?_
              show abs (d.balance + min c.balance |d.balance|) < 1/100
              rw [hm, habs]
              norm_num
      case isFalse hemit =>
        split at h
        case isTrue hadvC =>
          split at h
          case isTrue hadvD =>
            rw [Option.map_eq_some'] at h
            obtain ⟨⟨txs', fcs', fds'⟩, hrec, heq⟩ := h
            simp only [Prod.mk.injEq] at heq
            obtain ⟨rfl, rfl, rfl⟩ := heq
            obtain ⟨hlen, hfcs, hfds, hsum⟩ := ih cs ds _ _ _ hrec hcs' hds'
            refine ⟨?_, ?_, ?_, ?_⟩
            · simp only [List.nil_append, List.length_cons]
              omega
            · intro b hb
              rcases List.mem_cons.mp hb with rfl | hb
              · exact hc0
              · exact hfcs b hb
            · intro b hb
              rcases List.mem_cons.mp hb with rfl | hb
              · exact hd0
              · exact hfds b hb
            · simp only [sumBal_cons]
              linarith
          case isFalse hadvD =>
            rw [Option.map_eq_some'] at h
            obtain ⟨⟨txs', fcs', fds'⟩, hrec, heq⟩ := h
            simp only [Prod.mk.injEq] at heq
            obtain ⟨rfl, rfl, rfl⟩ := heq
            obtain ⟨hlen, hfcs, hfds, hsum⟩ := ih cs (d :: ds) _ _ _ hrec hcs' hds
            refine ⟨?_, ?_, ?_, ?_⟩
            · simp only [List.nil_append, List.length_cons] at *
              omega
            · intro b hb
              rcases List.mem_cons.mp hb with rfl | hb
              · exact hc0
              · exact hfcs b hb
            · exact hfds
            · simp only [sumBal_cons] at *
              linarith
        case isFalse hadvC =>
          split at h
          case isTrue hadvD =>
            rw [Option.map_eq_some'] at h
            obtain ⟨⟨txs', fcs', fds'⟩, hrec, heq⟩ := h
            simp only [Prod.mk.injEq] at heq
            obtain ⟨rfl, rfl, rfl⟩ := heq
            obtain ⟨hlen, hfcs, hfds, hsum⟩ := ih (c :: cs) ds _ _ _ hrec hcs hds'
            refine ⟨?_, ?_, ?_, ?_⟩
            · simp only [List.nil_append, List.length_cons] at *
              omega
            · exact hfcs
            · intro b hb
              rcases List.mem_cons.mp hb with rfl | hb
              · exact hd0
              · exact hfds b hb
            · simp only [sumBal_cons] at *
              linarith
          case isFalse hadvD =>
            rw [Option.map_eq_some'] at h
            obtain ⟨⟨txs', fcs', fds'⟩, hrec, heq⟩ := h
            simp only [Prod.mk.injEq] at heq
            obtain ⟨rfl, rfl, rfl⟩ := heq
            obtain ⟨hlen, hfcs, hfds, hsum⟩ := ih (c :: cs) (d :: ds) _ _ _ hrec hcs hds
            refine ⟨?_, ?_, ?_, ?_⟩
            · simp only [List.nil_append, List.length_cons] at *
              omega
            · exact hfcs
            · exact hfds
            · simp only [sumBal_cons] at *
              linarith

/-- Every transaction emitted by the greedy loop takes its payer from the
debtor list and its payee from the creditor list. -/
theorem simplifyLoop_tx_users :
    ∀ (fuel : Nat) (cs ds : List UserBalance) (txs : List SettlementTransaction)
      (fcs fds : List UserBalance),
      simplifyLoop fuel cs ds = some (txs, fcs, fds) →
      ∀ t ∈ txs, t.from_ ∈ ds.map (fun b => b.user) ∧ t.to_ ∈ cs.map (fun b => b.user) := by
  intro fuel
  induction fuel with
  | zero =>
    rintro (_ | ⟨c, cs⟩) (_ | ⟨d, ds⟩) txs fcs fds h t ht
    · simp only [simplifyLoop, Option.some.injEq, Prod.mk.injEq] at h
      obtain ⟨rfl, rfl, rfl⟩ := h; cases ht
    · simp only [simplifyLoop, Option.some.injEq, Prod.mk.injEq] at h
      obtain ⟨rfl, rfl, rfl⟩ := h; cases ht
    · simp only [simplifyLoop, Option.some.injEq, Prod.mk.injEq] at h
      obtain ⟨rfl, rfl, rfl⟩ := h; cases ht
    · simp [simplifyLoop] at h
  | succ fuel ih =>
    rintro (_ | ⟨c, cs⟩) (_ | ⟨d, ds⟩) txs fcs fds h t ht
    · simp only [simplifyLoop, Option.some.injEq, Prod.mk.injEq] at h
      obtain ⟨rfl, rfl, rfl⟩ := h; cases ht
    · simp only [simplifyLoop, Option.some.injEq, Prod.mk.injEq] at h
      obtain ⟨rfl, rfl, rfl⟩ := h; cases ht
    · simp only [simplifyLoop, Option.some.injEq, Prod.mk.injEq] at h
      obtain ⟨rfl, rfl, rfl⟩ := h; cases ht
    · simp only [simplifyLoop] at h
      split at h <;> split at h <;> split at h <;>
        rw [Option.map_eq_some'] at h <;>
        obtain ⟨⟨txs', fcs', fds'⟩, hrec, heq⟩ := h <;>
        (simp only [Prod.mk.injEq] at heq; obtain ⟨rfl, rfl, rfl⟩ := heq)
      all_goals rcases List.mem_append.mp ht with h0 | h1
      all_goals first
        | exact absurd h0 (List.not_mem_nil _)
        | (simp only [List.mem_singleton] at h0; subst h0; exact ⟨by simp, by simp⟩)
        | (obtain ⟨hfrom, hto⟩ := ih _ _ _ _ _ hrec t h1
           exact ⟨by first
                    | exact hfrom
                    | exact List.mem_cons_of_mem _ hfrom,
                  by first
                    | exact hto
                    | exact List.mem_cons_of_mem _ hto⟩)

/-- On whole-cent inputs with the filter sign discipline, the greedy loop
keeps every balance a whole number of cents, and when it terminates at
least one side is fully settled: every final creditor record is zero, or
every final debtor record is zero (an entry is only advanced past when its
residual is under one cent, which for whole-cent values means exactly
zero; the side whose list ran out was advanced past entirely). -/
theorem simplifyLoop_cent :
    ∀ (fuel : Nat) (cs ds : List UserBalance) (txs : List SettlementTransaction)
      (fcs fds : List UserBalance),
      simplifyLoop fuel cs ds = some (txs, fcs, fds) →
      (∀ b ∈ cs, 0 ≤ b.balance) → (∀ b ∈ ds, b.balance ≤ 0) →
      (∀ b ∈ cs, centMultiple b.balance) → (∀ b ∈ ds, centMultiple b.balance) →
      (∀ b ∈ fcs, centMultiple b.balance) ∧ (∀ b ∈ fds, centMultiple b.balance) ∧
      ((∀ b ∈ fcs, b.balance = 0) ∨ (∀ b ∈ fds, b.balance = 0)) := by
  intro fuel
  induction fuel with
  | zero =>
    rintro (_ | ⟨c, cs⟩) (_ | ⟨d, ds⟩) txs fcs fds h hcs hds hccs hcds
    · simp only [simplifyLoop, Option.some.injEq, Prod.mk.injEq] at h
      obtain ⟨rfl, rfl, rfl⟩ := h
      exact ⟨by simp, hcds, Or.inl (by simp)⟩
    · simp only [simplifyLoop, Option.some.injEq, Prod.mk.injEq] at h
      obtain ⟨rfl, rfl, rfl⟩ := h
      exact ⟨by simp, hcds, Or.inl (by simp)⟩
    · simp only [simplifyLoop, Option.some.injEq, Prod.mk.injEq] at h
      obtain ⟨rfl, rfl, rfl⟩ := h
      exact ⟨hccs, by simp, Or.inr (by simp)⟩
    · simp [simplifyLoop] at h
  | succ fuel ih =>
    rintro (_ | ⟨c, cs⟩) (_ | ⟨d, ds⟩) txs fcs fds h hcs hds hccs hcds
    · simp only [simplifyLoop, Option.some.injEq, Prod.mk.injEq] at h
      obtain ⟨rfl, rfl, rfl⟩ := h
      exact ⟨by simp, hcds, Or.inl (by simp)⟩
    · simp only [simplifyLoop, Option.some.injEq, Prod.mk.injEq] at h
      obtain ⟨rfl, rfl, rfl⟩ := h
      exact ⟨by simp, hcds, Or.inl (by simp)⟩
    · simp only [simplifyLoop, Option.some.injEq, Prod.mk.injEq] at h
      obtain ⟨rfl, rfl, rfl⟩ := h
      exact ⟨hccs, by simp, Or.inr (by simp)⟩
    · simp only [simplifyLoop] at h
      have hc0 : 0 ≤ c.balance := hcs c (by simp)
      have hd0 : d.balance ≤ 0 := hds d (by simp)
      have hcc : centMultiple c.balance := hccs c (by simp)
      have hcd : centMultiple d.balance := hcds d (by simp)
      have hcs' : ∀ b ∈ cs, 0 ≤ b.balance := fun b hb => hcs b (List.mem_cons_of_mem _ hb)
      have hds' : ∀ b ∈ ds, b.balance ≤ 0 := fun b hb => hds b (List.mem_cons_of_mem _ hb)
      have hccs' : ∀ b ∈ cs, centMultiple b.balance :=
        fun b hb => hccs b (List.mem_cons_of_mem _ hb)
      have hcds' : ∀ b ∈ ds, centMultiple b.balance :=
        fun b hb => hcds b (List.mem_cons_of_mem _ hb)
      have habs : |d.balance| = -d.balance := abs_of_nonpos hd0
      have hs_le_c : min c.balance |d.balance| ≤ c.balance := min_le_left _ _
      have hs_le_d : min c.balance |d.balance| ≤ |d.balance| := min_le_right _ _
      have hscent : centMultiple (min c.balance |d.balance|) :=
        centMultiple_min hcc (centMultiple_abs hcd)
      split at h
      case isTrue hemit =>
        have hc' : (0:ℚ) ≤ c.balance - min c.balance |d.balance| := by linarith
        have hd' : d.balance + min c.balance |d.balance| ≤ 0 := by
          have h2 : min c.balance |d.balance| ≤ -d.balance := hs_le_d.trans_eq habs
          linarith
        have hc'cent : centMultiple (c.balance - min c.balance |d.balance|) :=
          centMultiple_sub hcc hscent
        have hd'cent : centMultiple (d.balance + min c.balance |d.balance|) :=
          centMultiple_add hcd hscent
        split at h
        case isTrue hadvC =>
          have hadvC' : c.balance - min c.balance |d.balance| < 1/100 := hadvC
          have hczero : c.balance - min c.balance |d.balance| = 0 :=
            centMultiple_eq_zero hc'cent hc' hadvC'
          split at h
          case isTrue hadvD =>
            have hadvD' : abs (d.balance + min c.balance |d.balance|) < 1/100 := hadvD
            have hdzero : d.balance + min c.balance |d.balance| = 0 := by
              have h1 : -(d.balance + min c.balance |d.balance|) = 0 := by
                refine centMultiple_eq_zero (centMultiple_neg hd'cent) (by linarith) ?_
                calc -(d.balance + min c.balance |d.balance|)
                    ≤ abs (d.balance + min c.balance |d.balance|) := neg_le_abs _
                  _ < 1/100 := hadvD'
              linarith
            rw [Option.map_eq_some'] at h
            obtain ⟨⟨txs', fcs', fds'⟩, hrec, heq⟩ := h
            simp only [Prod.mk.injEq] at heq
            obtain ⟨rfl, rfl, rfl⟩ := heq
            obtain ⟨hC, hD, hdisj⟩ := ih cs ds _ _ _ hrec hcs' hds' hccs' hcds'
            refine ⟨?_, ?_, ?_⟩
            · intro b hb
              rcases List.mem_cons.mp hb with rfl | hb
              · exact hc'cent
              · exact hC b hb
            · intro b hb
              rcases List.mem_cons.mp hb with rfl | hb
              · exact hd'cent
              · exact hD b hb
            · rcases hdisj with hl | hr
              · refine Or.inl ?_
                intro b hb
                rcases List.mem_cons.mp hb with rfl | hb
                · exact hczero
                · exact hl b hb
              · refine Or.inr ?_
                intro b hb
                rcases List.mem_cons.mp hb with rfl | hb
                · exact hdzero
                · exact hr b hb
          case isFalse hadvD =>
            rw [Option.map_eq_some'] at h
            obtain ⟨⟨txs', fcs', fds'⟩, hrec, heq⟩ := h
            simp only [Prod.mk.injEq] at heq
            obtain ⟨rfl, rfl, rfl⟩ := heq
            have hdsrec : ∀ b ∈ ({ d with balance := d.balance + min c.balance |d.balance| } :: ds),
                b.balance ≤ 0 := by
              intro b hb
              rcases List.mem_cons.mp hb with rfl | hb
              · exact hd'
              · exact hds' b hb
            have hcdsrec :
                ∀ b ∈ ({ d with balance := d.balance + min c.balance |d.balance| } :: ds),
                  centMultiple b.balance := by
              intro b hb
              rcases List.mem_cons.mp hb with rfl | hb
              · exact hd'cent
              · exact hcds' b hb
            obtain ⟨hC, hD, hdisj⟩ := ih cs _ _ _ _ hrec hcs' hdsrec hccs' hcdsrec
            refine ⟨?_, hD, ?_⟩
            · intro b hb
              rcases List.mem_cons.mp hb with rfl | hb
              · exact hc'cent
              · exact hC b hb
            · rcases hdisj with hl | hr
              · refine Or.inl ?_
                intro b hb
                rcases List.mem_cons.mp hb with rfl | hb
                · exact hczero
                · exact hl b hb
              · exact Or.inr hr
        case isFalse hadvC =>
          split at h
          case isTrue hadvD =>
            have hadvD' : abs (d.balance + min c.balance |d.balance|) < 1/100 := hadvD
            have hdzero : d.balance + min c.balance |d.balance| = 0 := by
              have h1 : -(d.balance + min c.balance |d.balance|) = 0 := by
                refine centMultiple_eq_zero (centMultiple_neg hd'cent) (by linarith) ?_
                calc -(d.balance + min c.balance |d.balance|)
                    ≤ abs (d.balance + min c.balance |d.balance|) := neg_le_abs _
                  _ < 1/100 := hadvD'
              linarith
            rw [Option.map_eq_some'] at h
            obtain ⟨⟨txs', fcs', fds'⟩, hrec, heq⟩ := h
            simp only [Prod.mk.injEq] at heq
            obtain ⟨rfl, rfl, rfl⟩ := heq
            have hcsrec : ∀ b ∈ ({ c with balance := c.balance - min c.balance |d.balance| } :: cs),
                0 ≤ b.balance := by
              intro b hb
              rcases List.mem_cons.mp hb with rfl | hb
              · exact hc'
              · exact hcs' b hb
            have hccsrec :
                ∀ b ∈ ({ c with balance := c.balance - min c.balance |d.balance| } :: cs),
                  centMultiple b.balance := by
              intro b hb
              rcases List.mem_cons.mp hb with rfl | hb
              · exact hc'cent
              · exact hccs' b hb
            obtain ⟨hC, hD, hdisj⟩ := ih _ ds _ _ _ hrec hcsrec hds' hccsrec hcds'
            refine ⟨hC, ?_, ?_⟩
            · intro b hb
              rcases List.mem_cons.mp hb with rfl | hb
              · exact hd'cent
              · exact hD b hb
            · rcases hdisj with hl | hr
              · exact Or.inl hl
              · refine Or.inr ?_
                intro b hb
                rcases List.mem_cons.mp hb with rfl | hb
                · exact hdzero
                · exact hr b hb
          case isFalse hadvD =>
            exfalso
            rcases min_choice c.balance |d.balance| with hm | hm
            · refine hadvC ?_
              show c.balance - min c.balance |d.balance| < 1/100
              rw [hm]
              norm_num
            · refine hadvD ?_
              show abs (d.balance + min c.balance |d.balance|) < 1/100
              rw [hm, habs]
              norm_num
      case isFalse hemit =>
        have hemit' : min c.balance |d.balance| ≤ 1/100 := not_lt.mp hemit
        split at h
        case isTrue hadvC =>
          have hadvC' : c.balance < 1/100 := hadvC
          have hczero : c.balance = 0 := centMultiple_eq_zero hcc hc0 hadvC'
          split at h
          case isTrue hadvD =>
            have hadvD' : |d.balance| < 1/100 := hadvD
            have hdzero : d.balance = 0 := by
              have h1 : -d.balance = 0 := by
                refine centMultiple_eq_zero (centMultiple_neg hcd) (by linarith) ?_
                rw [← habs]
                exact hadvD'
              linarith
            rw [Option.map_eq_some'] at h
            obtain ⟨⟨txs', fcs', fds'⟩, hrec, heq⟩ := h
            simp only [Prod.mk.injEq] at heq
            obtain ⟨rfl, rfl, rfl⟩ := heq
            obtain ⟨hC, hD, hdisj⟩ := ih cs ds _ _ _ hrec hcs' hds' hccs' hcds'
            refine ⟨?_, ?_, ?_⟩
            · intro b hb
              rcases List.mem_cons.mp hb with rfl | hb
              · exact hcc
              · exact hC b hb
            · intro b hb
              rcases List.mem_cons.mp hb with rfl | hb
              · exact hcd
              · exact hD b hb
            · rcases hdisj with hl | hr
              · refine Or.inl ?_
                intro b hb
                rcases List.mem_cons.mp hb with rfl | hb
                · exact hczero
                · exact hl b hb
              · refine Or.inr ?_
                intro b hb
                rcases List.mem_cons.mp hb with rfl | hb
                · exact hdzero
                · exact hr b hb
          case isFalse hadvD =>
            rw [Option.map_eq_some'] at h
            obtain ⟨⟨txs', fcs', fds'⟩, hrec, heq⟩ := h
            simp only [Prod.mk.injEq] at heq
            obtain ⟨rfl, rfl, rfl⟩ := heq
            obtain ⟨hC, hD, hdisj⟩ := ih cs (d :: ds) _ _ _ hrec hcs' hds hccs' hcds
            refine ⟨?_, hD, ?_⟩
            · intro b hb
              rcases List.mem_cons.mp hb with rfl | hb
              · exact hcc
              · exact hC b hb
            · rcases hdisj with hl | hr
              · refine Or.inl ?_
                intro b hb
                rcases List.mem_cons.mp hb with rfl | hb
                · exact hczero
                · exact hl b hb
              · exact Or.inr hr
        case isFalse hadvC =>
          split at h
          case isTrue hadvD =>
            have hadvD' : |d.balance| < 1/100 := hadvD
            have hdzero : d.balance = 0 := by
              have h1 : -d.balance = 0 := by
                refine centMultiple_eq_zero (centMultiple_neg hcd) (by linarith) ?_
                rw [← habs]
                exact hadvD'
              linarith
            rw [Option.map_eq_some'] at h
            obtain ⟨⟨txs', fcs', fds'⟩, hrec, heq⟩ := h
            simp only [Prod.mk.injEq] at heq
            obtain ⟨rfl, rfl, rfl⟩ := heq
            obtain ⟨hC, hD, hdisj⟩ := ih (c :: cs) ds _ _ _ hrec hcs hds' hccs hcds'
            refine ⟨hC, ?_, ?_⟩
            · intro b hb
              rcases List.mem_cons.mp hb with rfl | hb
              · exact hcd
              · exact hD b hb
            · rcases hdisj with hl | hr
              · exact Or.inl hl
              · refine Or.inr ?_
                intro b hb
                rcases List.mem_cons.mp hb with rfl | hb
                · exact hdzero
                · exact hr b hb
          case isFalse hadvD =>
            rw [Option.map_eq_some'] at h
            obtain ⟨⟨txs', fcs', fds'⟩, hrec, heq⟩ := h
            simp only [Prod.mk.injEq] at heq
            obtain ⟨rfl, rfl, rfl⟩ := heq
            exact ih (c :: cs) (d :: ds) _ _ _ hrec hcs hds hccs hcds

theorem netTransfer_single (u : User) (t : SettlementTransaction) :
    netTransfer u [t] =
      (if t.from_ = u then t.amount else 0) - (if t.to_ = u then t.amount else 0) := by
  by_cases h1 : t.from_ = u <;> by_cases h2 : t.to_ = u <;>
    simp [netTransfer, List.filter_singleton, h1, h2]

theorem netTransfer_not_involved {u : User} {t : SettlementTransaction}
    (h1 : t.from_ ≠ u) (h2 : t.to_ ≠ u) : netTransfer u [t] = 0 := by
  rw [netTransfer_single, if_neg h1, if_neg h2, sub_zero]

theorem netTransfer_payee {u : User} {t : SettlementTransaction}
    (h1 : t.from_ ≠ u) (h2 : t.to_ = u) : netTransfer u [t] = -t.amount := by
  rw [netTransfer_single, if_neg h1, if_pos h2, zero_sub]

theorem netTransfer_payer {u : User} {t : SettlementTransaction}
    (h1 : t.from_ = u) (h2 : t.to_ ≠ u) : netTransfer u [t] = t.amount := by
  rw [netTransfer_single, if_pos h1, if_neg h2, sub_zero]

theorem netTransfer_eq_zero {u : User} {txs : List SettlementTransaction}
    (h : ∀ t ∈ txs, t.from_ ≠ u ∧ t.to_ ≠ u) : netTransfer u txs = 0 := by
  induction txs with
  | nil => simp
  | cons t txs ih =>
    have hsplit : netTransfer u (t :: txs) = netTransfer u [t] + netTransfer u txs :=
      netTransfer_append u [t] txs
    rw [hsplit, netTransfer_not_involved (h t (by simp)).1 (h t (by simp)).2,
      ih fun s hs => h s (List.mem_cons_of_mem _ hs), add_zero]

theorem balance_update_congr (b : UserBalance) {x y : ℚ} (h : x = y) :
    ({ b with balance := x } : UserBalance) = { b with balance := y } := by
  rw [h]

theorem balance_update_self (b : UserBalance) {x : ℚ} (h : x = b.balance) :
    ({ b with balance := x } : UserBalance) = b := by
  rw [h]

theorem netTransfer_payee' {u₁ u₂ : User} {a : ℚ} (h : u₁ ≠ u₂) :
    netTransfer u₂ [{ from_ := u₁, to_ := u₂, amount := a }] = -a :=
  netTransfer_payee h rfl

theorem netTransfer_payer' {u₁ u₂ : User} {a : ℚ} (h : u₂ ≠ u₁) :
    netTransfer u₁ [{ from_ := u₁, to_ := u₂, amount := a }] = a :=
  netTransfer_payer rfl h

theorem netTransfer_other' {u₁ u₂ v : User} {a : ℚ} (h1 : u₁ ≠ v) (h2 : u₂ ≠ v) :
    netTransfer v [{ from_ := u₁, to_ := u₂, amount := a }] = 0 :=
  netTransfer_not_involved h1 h2

/-- On whole-cent inputs with pairwise-distinct users, the final creditor
and debtor records of the greedy loop are exactly the input records with
each balance shifted by that user's net transfer under the emitted
transactions (the rounding in the emitted amount is the identity on
whole-cent settle amounts, so the internal mutations and the emitted
amounts agree). -/
theorem simplifyLoop_final :
    ∀ (fuel : Nat) (cs ds : List UserBalance) (txs : List SettlementTransaction)
      (fcs fds : List UserBalance),
      simplifyLoop fuel cs ds = some (txs, fcs, fds) →
      (∀ b ∈ cs, centMultiple b.balance) → (∀ b ∈ ds, centMultiple b.balance) →
      ((cs.map fun b => b.user) ++ (ds.map fun b => b.user)).Nodup →
      fcs = cs.map (fun b => { b with balance := b.balance + netTransfer b.user txs }) ∧
      fds = ds.map (fun b => { b with balance := b.balance + netTransfer b.user txs }) := by
  have base1 : ∀ (l : List UserBalance),
      l = l.map (fun b => { b with balance := b.balance + netTransfer b.user [] }) := by
    intro l
    have h : ∀ b ∈ l, ({ b with balance := b.balance + netTransfer b.user [] } :
        UserBalance) = b := by
      intro b _
      rw [netTransfer_nil, add_zero]
    exact ((List.map_congr_left h).trans (List.map_id l)).symm
  intro fuel
  induction fuel with
  | zero =>
    rintro (_ | ⟨c, cs⟩) (_ | ⟨d, ds⟩) txs fcs fds h hccs hcds hnd
    · simp only [simplifyLoop, Option.some.injEq, Prod.mk.injEq] at h
      obtain ⟨rfl, rfl, rfl⟩ := h
      exact ⟨rfl, base1 _⟩
    · simp only [simplifyLoop, Option.some.injEq, Prod.mk.injEq] at h
      obtain ⟨rfl, rfl, rfl⟩ := h
      exact ⟨rfl, base1 _⟩
    · simp only [simplifyLoop, Option.some.injEq, Prod.mk.injEq] at h
      obtain ⟨rfl, rfl, rfl⟩ := h
      exact ⟨base1 _, rfl⟩
    · simp [simplifyLoop] at h
  | succ fuel ih =>
    rintro (_ | ⟨c, cs⟩) (_ | ⟨d, ds⟩) txs fcs fds h hccs hcds hnd
    · simp only [simplifyLoop, Option.some.injEq, Prod.mk.injEq] at h
      obtain ⟨rfl, rfl, rfl⟩ := h
      exact ⟨rfl, base1 _⟩
    · simp only [simplifyLoop, Option.some.injEq, Prod.mk.injEq] at h
      obtain ⟨rfl, rfl, rfl⟩ := h
      exact ⟨rfl, base1 _⟩
    · simp only [simplifyLoop, Option.some.injEq, Prod.mk.injEq] at h
      obtain ⟨rfl, rfl, rfl⟩ := h
      exact ⟨base1 _, rfl⟩
    · simp only [simplifyLoop] at h
      have hcc : centMultiple c.balance := hccs c (by simp)
      have hcd : centMultiple d.balance := hcds d (by simp)
      have hccs' : ∀ b ∈ cs, centMultiple b.balance :=
        fun b hb => hccs b (List.mem_cons_of_mem _ hb)
      have hcds' : ∀ b ∈ ds, centMultiple b.balance :=
        fun b hb => hcds b (List.mem_cons_of_mem _ hb)
      have hscent : centMultiple (min c.balance |d.balance|) :=
        centMultiple_min hcc (centMultiple_abs hcd)
      have hround : round2 (min c.balance |d.balance|) = min c.balance |d.balance| :=
        round2_centMultiple hscent
      have hnd' : (c.user :: ((cs.map fun b => b.user) ++
          d.user :: (ds.map fun b => b.user))).Nodup := hnd
      obtain ⟨hcnotin, hnd2⟩ := List.nodup_cons.mp hnd'
      rw [List.mem_append, List.mem_cons] at hcnotin
      push_neg at hcnotin
      obtain ⟨hc_cs, hc_d, hc_ds⟩ := hcnotin
      have hnd2' := hnd2
      rw [List.nodup_middle] at hnd2
      obtain ⟨hdnotin, hnd3⟩ := List.nodup_cons.mp hnd2
      rw [List.mem_append] at hdnotin
      push_neg at hdnotin
      obtain ⟨hd_cs, hd_ds⟩ := hdnotin
      have hcdrec :
          ∀ b ∈ ({ d with balance := d.balance + min c.balance |d.balance| } :: ds),
            centMultiple b.balance := by
        intro b hb
        rcases List.mem_cons.mp hb with rfl | hb
        · exact centMultiple_add hcd hscent
        · exact hcds' b hb
      have hccrec :
          ∀ b ∈ ({ c with balance := c.balance - min c.balance |d.balance| } :: cs),
            centMultiple b.balance := by
        intro b hb
        rcases List.mem_cons.mp hb with rfl | hb
        · exact centMultiple_sub hcc hscent
        · exact hccs' b hb
      have hndD : (c.user :: ((cs.map fun b => b.user) ++ (ds.map fun b => b.user))).Nodup :=
        List.nodup_cons.mpr ⟨by rw [List.mem_append]; push_neg; exact ⟨hc_cs, hc_ds⟩, hnd3⟩
      split at h
      case isTrue hemit =>
        split at h
        case isTrue hadvC =>
          split at h
          case isTrue hadvD =>
            rw [Option.map_eq_some'] at h
            obtain ⟨⟨txs', fcs', fds'⟩, hrec, heq⟩ := h
            simp only [Prod.mk.injEq] at heq
            obtain ⟨rfl, rfl, rfl⟩ := heq
            obtain ⟨hF, hG⟩ := ih cs ds _ _ _ hrec hccs' hcds' hnd3
            have husers := simplifyLoop_tx_users _ _ _ _ _ _ hrec
            have hcz : netTransfer c.user txs' = 0 := by
              refine netTransfer_eq_zero fun t ht => ?_
              obtain ⟨hf, ht2⟩ := husers t ht
              exact ⟨fun hEq => hc_ds (hEq ▸ hf), fun hEq => hc_cs (hEq ▸ ht2)⟩
            have hdz : netTransfer d.user txs' = 0 := by
              refine netTransfer_eq_zero fun t ht => ?_
              obtain ⟨hf, ht2⟩ := husers t ht
              exact ⟨fun hEq => hd_ds (hEq ▸ hf), fun hEq => hd_cs (hEq ▸ ht2)⟩
            constructor
            · rw [hF, List.map_cons]
              refine List.cons_eq_cons.mpr ⟨?_, ?_⟩
              · refine balance_update_congr c ?_
                rw [netTransfer_append, hcz,
                  netTransfer_payee' (fun hEq => hc_d hEq.symm), hround]
                ring
              · refine List.map_congr_left fun b hb => ?_
                refine balance_update_congr b ?_
                rw [netTransfer_append,
                  netTransfer_other' (fun hEq => hd_cs (by rw [hEq]; exact List.mem_map_of_mem _ hb))
                    (fun hEq => hc_cs (by rw [hEq]; exact List.mem_map_of_mem _ hb))]
                ring
            · rw [hG, List.map_cons]
              refine List.cons_eq_cons.mpr ⟨?_, ?_⟩
              · refine balance_update_congr d ?_
                rw [netTransfer_append, hdz, netTransfer_payer' hc_d, hround]
                ring
              · refine List.map_congr_left fun b hb => ?_
                refine balance_update_congr b ?_
                rw [netTransfer_append,
                  netTransfer_other' (fun hEq => hd_ds (by rw [hEq]; exact List.mem_map_of_mem _ hb))
                    (fun hEq => hc_ds (by rw [hEq]; exact List.mem_map_of_mem _ hb))]
                ring
          case isFalse hadvD =>
            rw [Option.map_eq_some'] at h
            obtain ⟨⟨txs', fcs', fds'⟩, hrec, heq⟩ := h
            simp only [Prod.mk.injEq] at heq
            obtain ⟨rfl, rfl, rfl⟩ := heq
            obtain ⟨hF, hG⟩ := ih cs _ _ _ _ hrec hccs' hcdrec hnd2'
            have husers := simplifyLoop_tx_users _ _ _ _ _ _ hrec
            have hcz : netTransfer c.user txs' = 0 := by
              refine netTransfer_eq_zero fun t ht => ?_
              obtain ⟨hf, ht2⟩ := husers t ht
              refine ⟨fun hEq => ?_, fun hEq => hc_cs (hEq ▸ ht2)⟩
              rw [hEq] at hf
              rcases List.mem_cons.mp hf with h1 | h1
              · exact hc_d h1
              · exact hc_ds h1
            constructor
            · rw [hF, List.map_cons]
              refine List.cons_eq_cons.mpr ⟨?_, ?_⟩
              · refine balance_update_congr c ?_
                rw [netTransfer_append, hcz,
                  netTransfer_payee' (fun hEq => hc_d hEq.symm), hround]
                ring
              · refine List.map_congr_left fun b hb => ?_
                refine balance_update_congr b ?_
                rw [netTransfer_append,
                  netTransfer_other' (fun hEq => hd_cs (by rw [hEq]; exact List.mem_map_of_mem _ hb))
                    (fun hEq => hc_cs (by rw [hEq]; exact List.mem_map_of_mem _ hb))]
                ring
            · rw [hG, List.map_cons, List.map_cons]
              refine List.cons_eq_cons.mpr ⟨?_, ?_⟩
              · refine balance_update_congr d ?_
                rw [netTransfer_append, netTransfer_payer' hc_d, hround]
                ring
              · refine List.map_congr_left fun b hb => ?_
                refine balance_update_congr b ?_
                rw [netTransfer_append,
                  netTransfer_other' (fun hEq => hd_ds (by rw [hEq]; exact List.mem_map_of_mem _ hb))
                    (fun hEq => hc_ds (by rw [hEq]; exact List.mem_map_of_mem _ hb))]
                ring
        case isFalse hadvC =>
          split at h
          case isTrue hadvD =>
            rw [Option.map_eq_some'] at h
            obtain ⟨⟨txs', fcs', fds'⟩, hrec, heq⟩ := h
            simp only [Prod.mk.injEq] at heq
            obtain ⟨rfl, rfl, rfl⟩ := heq
            obtain ⟨hF, hG⟩ := ih _ ds _ _ _ hrec hccrec hcds' hndD
            have husers := simplifyLoop_tx_users _ _ _ _ _ _ hrec
            have hdz : netTransfer d.user txs' = 0 := by
              refine netTransfer_eq_zero fun t ht => ?_
              obtain ⟨hf, ht2⟩ := husers t ht
              refine ⟨fun hEq => hd_ds (hEq ▸ hf), fun hEq => ?_⟩
              rw [hEq] at ht2
              rcases List.mem_cons.mp ht2 with h1 | h1
              · exact hc_d h1.symm
              · exact hd_cs h1
            constructor
            · rw [hF, List.map_cons, List.map_cons]
              refine List.cons_eq_cons.mpr ⟨?_, ?_⟩
              · refine balance_update_congr c ?_
                rw [netTransfer_append,
                  netTransfer_payee' (fun hEq => hc_d hEq.symm), hround]
                ring
              · refine List.map_congr_left fun b hb => ?_
                refine balance_update_congr b ?_
                rw [netTransfer_append,
                  netTransfer_other' (fun hEq => hd_cs (by rw [hEq]; exact List.mem_map_of_mem _ hb))
                    (fun hEq => hc_cs (by rw [hEq]; exact List.mem_map_of_mem _ hb))]
                ring
            · rw [hG, List.map_cons]
              refine List.cons_eq_cons.mpr ⟨?_, ?_⟩
              · refine balance_update_congr d ?_
                rw [netTransfer_append, hdz, netTransfer_payer' hc_d, hround]
                ring
              · refine List.map_congr_left fun b hb => ?_
                refine balance_update_congr b ?_
                rw [netTransfer_append,
                  netTransfer_other' (fun hEq => hd_ds (by rw [hEq]; exact List.mem_map_of_mem _ hb))
                    (fun hEq => hc_ds (by rw [hEq]; exact List.mem_map_of_mem _ hb))]
                ring
          case isFalse hadvD =>
            rw [Option.map_eq_some'] at h
            obtain ⟨⟨txs', fcs', fds'⟩, hrec, heq⟩ := h
            simp only [Prod.mk.injEq] at heq
            obtain ⟨rfl, rfl, rfl⟩ := heq
            obtain ⟨hF, hG⟩ := ih _ _ _ _ _ hrec hccrec hcdrec hnd
            constructor
            · rw [hF, List.map_cons, List.map_cons]
              refine List.cons_eq_cons.mpr ⟨?_, ?_⟩
              · refine balance_update_congr c ?_
                rw [netTransfer_append,
                  netTransfer_payee' (fun hEq => hc_d hEq.symm), hround]
                ring
              · refine List.map_congr_left fun b hb => ?_
                refine balance_update_congr b ?_
                rw [netTransfer_append,
                  netTransfer_other' (fun hEq => hd_cs (by rw [hEq]; exact List.mem_map_of_mem _ hb))
                    (fun hEq => hc_cs (by rw [hEq]; exact List.mem_map_of_mem _ hb))]
                ring
            · rw [hG, List.map_cons, List.map_cons]
              refine List.cons_eq_cons.mpr ⟨?_, ?_⟩
              · refine balance_update_congr d ?_
                rw [netTransfer_append, netTransfer_payer' hc_d, hround]
                ring
              · refine List.map_congr_left fun b hb => ?_
                refine balance_update_congr b ?_
                rw [netTransfer_append,
                  netTransfer_other' (fun hEq => hd_ds (by rw [hEq]; exact List.mem_map_of_mem _ hb))
                    (fun hEq => hc_ds (by rw [hEq]; exact List.mem_map_of_mem _ hb))]
                ring
      case isFalse hemit =>
        split at h
        case isTrue hadvC =>
          split at h
          case isTrue hadvD =>
            rw [Option.map_eq_some'] at h
            obtain ⟨⟨txs', fcs', fds'⟩, hrec, heq⟩ := h
            simp only [Prod.mk.injEq] at heq
            obtain ⟨rfl, rfl, rfl⟩ := heq
            obtain ⟨hF, hG⟩ := ih cs ds _ _ _ hrec hccs' hcds' hnd3
            have husers := simplifyLoop_tx_users _ _ _ _ _ _ hrec
            have hcz : netTransfer c.user txs' = 0 := by
              refine netTransfer_eq_zero fun t ht => ?_
              obtain ⟨hf, ht2⟩ := husers t ht
              exact ⟨fun hEq => hc_ds (hEq ▸ hf), fun hEq => hc_cs (hEq ▸ ht2)⟩
            have hdz : netTransfer d.user txs' = 0 := by
              refine netTransfer_eq_zero fun t ht => ?_
              obtain ⟨hf, ht2⟩ := husers t ht
              exact ⟨fun hEq => hd_ds (hEq ▸ hf), fun hEq => hd_cs (hEq ▸ ht2)⟩
            constructor
            · rw [hF, List.map_cons]
              refine List.cons_eq_cons.mpr ⟨?_, ?_⟩
              · refine (balance_update_self c ?_).symm
                rw [List.nil_append, hcz, add_zero]
              · exact List.map_congr_left fun b hb =>
                  balance_update_congr b (by rw [List.nil_append])
            · rw [hG, List.map_cons]
              refine List.cons_eq_cons.mpr ⟨?_, ?_⟩
              · refine (balance_update_self d ?_).symm
                rw [List.nil_append, hdz, add_zero]
              · exact List.map_congr_left fun b hb =>
                  balance_update_congr b (by rw [List.nil_append])
          case isFalse hadvD =>
            rw [Option.map_eq_some'] at h
            obtain ⟨⟨txs', fcs', fds'⟩, hrec, heq⟩ := h
            simp only [Prod.mk.injEq] at heq
            obtain ⟨rfl, rfl, rfl⟩ := heq
            obtain ⟨hF, hG⟩ := ih cs (d :: ds) _ _ _ hrec hccs' hcds hnd2'
            have husers := simplifyLoop_tx_users _ _ _ _ _ _ hrec
            have hcz : netTransfer c.user txs' = 0 := by
              refine netTransfer_eq_zero fun t ht => ?_
              obtain ⟨hf, ht2⟩ := husers t ht
              refine ⟨fun hEq => ?_, fun hEq => hc_cs (hEq ▸ ht2)⟩
              rw [hEq] at hf
              rcases List.mem_cons.mp hf with h1 | h1
              · exact hc_d h1
              · exact hc_ds h1
            constructor
            · rw [hF, List.map_cons]
              refine List.cons_eq_cons.mpr ⟨?_, ?_⟩
              · refine (balance_update_self c ?_).symm
                rw [List.nil_append, hcz, add_zero]
              · exact List.map_congr_left fun b hb =>
                  balance_update_congr b (by rw [List.nil_append])
            · rw [hG]
              exact List.map_congr_left fun b hb =>
                balance_update_congr b (by rw [List.nil_append])
        case isFalse hadvC =>
          split at h
          case isTrue hadvD =>
            rw [Option.map_eq_some'] at h
            obtain ⟨⟨txs', fcs', fds'⟩, hrec, heq⟩ := h
            simp only [Prod.mk.injEq] at heq
            obtain ⟨rfl, rfl, rfl⟩ := heq
            obtain ⟨hF, hG⟩ := ih (c :: cs) ds _ _ _ hrec hccs hcds' hndD
            have husers := simplifyLoop_tx_users _ _ _ _ _ _ hrec
            have hdz : netTransfer d.user txs' = 0 := by
              refine netTransfer_eq_zero fun t ht => ?_
              obtain ⟨hf, ht2⟩ := husers t ht
              refine ⟨fun hEq => hd_ds (hEq ▸ hf), fun hEq => ?_⟩
              rw [hEq] at ht2
              rcases List.mem_cons.mp ht2 with h1 | h1
              · exact hc_d h1.symm
              · exact hd_cs h1
            constructor
            · rw [hF]
              exact List.map_congr_left fun b hb =>
                balance_update_congr b (by rw [List.nil_append])
            · rw [hG, List.map_cons]
              refine List.cons_eq_cons.mpr ⟨?_, ?_⟩
              · refine (balance_update_self d ?_).symm
                rw [List.nil_append, hdz, add_zero]
              · exact List.map_congr_left fun b hb =>
                  balance_update_congr b (by rw [List.nil_append])
          case isFalse hadvD =>
            rw [Option.map_eq_some'] at h
            obtain ⟨⟨txs', fcs', fds'⟩, hrec, heq⟩ := h
            simp only [Prod.mk.injEq] at heq
            obtain ⟨rfl, rfl, rfl⟩ := heq
            obtain ⟨hF, hG⟩ := ih (c :: cs) (d :: ds) _ _ _ hrec hccs hcds hnd
            constructor
            · rw [hF]
              exact List.map_congr_left fun b hb =>
                balance_update_congr b (by rw [List.nil_append])
            · rw [hG]
              exact List.map_congr_left fun b hb =>
                balance_update_congr b (by rw [List.nil_append])

theorem map_netTransfer_nil (l : List UserBalance) :
    l.map (fun b => { b with balance := b.balance + netTransfer b.user [] }) = l := by
  have h : ∀ b ∈ l, ({ b with balance := b.balance + netTransfer b.user [] } :
      UserBalance) = b := by
    intro b _
    rw [netTransfer_nil, add_zero]
  exact (List.map_congr_left h).trans (List.map_id l)

/-- Applying a list of transactions with no self-payment acts on each
balance record independently: it adds the record's user's net transfer. -/
theorem applyTransactions_eq_map (bs : List UserBalance) (txs : List SettlementTransaction)
    (hne : ∀ t ∈ txs, t.from_ ≠ t.to_) :
    applyTransactions bs txs =
      bs.map fun b => { b with balance := b.balance + netTransfer b.user txs } := by
  induction txs generalizing bs with
  | nil =>
    rw [map_netTransfer_nil]
    rfl
  | cons t txs ih =>
    have h1 : applyTransactions bs (t :: txs) =
        applyTransactions (applyTransaction bs t) txs := rfl
    rw [h1, ih _ (fun s hs => hne s (List.mem_cons_of_mem _ hs)), applyTransaction,
      List.map_map]
    refine List.map_congr_left fun b _ => ?_
    have hsplit : netTransfer b.user (t :: txs) =
        netTransfer b.user [t] + netTransfer b.user txs := netTransfer_append _ [t] txs
    by_cases hf : b.user = t.from_
    · have hto_ne : t.to_ ≠ b.user :=
        fun hEq => hne t (List.mem_cons_self t txs) (hf.symm.trans hEq.symm)
      show (fun x => ({ x with balance := x.balance + netTransfer x.user txs} : UserBalance))
          (if b.user = t.from_ then { b with balance := b.balance + t.amount }
            else if b.user = t.to_ then { b with balance := b.balance - t.amount } else b) = _
      rw [if_pos hf]
      refine balance_update_congr b ?_
      rw [hsplit, netTransfer_payer hf.symm hto_ne]
      ring
    · by_cases ht : b.user = t.to_
      · show (fun x => ({ x with balance := x.balance + netTransfer x.user txs} : UserBalance))
            (if b.user = t.from_ then { b with balance := b.balance + t.amount }
              else if b.user = t.to_ then { b with balance := b.balance - t.amount } else b) = _
        rw [if_neg hf, if_pos ht]
        refine balance_update_congr b ?_
        rw [hsplit, netTransfer_payee (fun hEq => hf hEq.symm) ht.symm]
        ring
      · show (fun x => ({ x with balance := x.balance + netTransfer x.user txs} : UserBalance))
            (if b.user = t.from_ then { b with balance := b.balance + t.amount }
              else if b.user = t.to_ then { b with balance := b.balance - t.amount } else b) = _
        rw [if_neg hf, if_neg ht]
        refine balance_update_congr b ?_
        rw [hsplit, netTransfer_not_involved (fun hEq => hf hEq.symm) (fun hEq => ht hEq.symm)]
        ring

/-! ## Concrete inputs used by witnesses and counterexamples -/

/-- A concrete user. -/
def alice : User := ⟨"a", "A", "a@x", "a@u"⟩

/-- A concrete user. -/
def bob : User := ⟨"b", "B", "b@x", "b@u"⟩

/-- A concrete user. -/
def carol : User := ⟨"c", "C", "c@x", "c@u"⟩

/-- A concrete user. -/
def dave : User := ⟨"d", "D", "d@x", "d@u"⟩

/-! ## Claims -/

/-- C8: for every input balance list, the number of transactions returned by
`simplifyDebts` is at most `(number of creditors) + (number of debtors) - 1`
(natural-number subtraction; with no creditors and no debtors the loop emits
nothing), where creditors are the balances above `0.01` and debtors the
balances below `-0.01`. -/
theorem simplifyDebts_transaction_bound (fuel : Nat) (bs : List UserBalance)
    (txs : List SettlementTransaction) (fcs fds : List UserBalance)
    (h : simplifyDebts fuel bs = some (txs, fcs, fds)) :
    txs.length ≤ (bs.filter fun b => b.balance > 1/100).length +
      (bs.filter fun b => b.balance < -(1/100)).length - 1 := by
  simp only [simplifyDebts] at h
  have hpc := List.perm_insertionSort (fun a b : UserBalance => b.balance ≤ a.balance)
    (bs.filter fun b => b.balance > 1/100)
  have hpd := List.perm_insertionSort (fun a b : UserBalance => a.balance ≤ b.balance)
    (bs.filter fun b => b.balance < -(1/100))
  have hcsign : ∀ b ∈ List.insertionSort (fun a b : UserBalance => b.balance ≤ a.balance)
      (bs.filter fun b => b.balance > 1/100), 0 ≤ b.balance := by
    intro b hb
    have hmem := hpc.mem_iff.mp hb
    have hpred := (List.mem_filter.mp hmem).2
    have hgt : b.balance > 1/100 := by simpa using hpred
    linarith
  have hdsign : ∀ b ∈ List.insertionSort (fun a b : UserBalance => a.balance ≤ b.balance)
      (bs.filter fun b => b.balance < -(1/100)), b.balance ≤ 0 := by
    intro b hb
    have hmem := hpd.mem_iff.mp hb
    have hpred := (List.mem_filter.mp hmem).2
    have hlt : b.balance < -(1/100) := by simpa using hpred
    linarith
  obtain ⟨hlen, _, _, _⟩ := simplifyLoop_main fuel _ _ _ _ _ h hcsign hdsign
  rw [hpc.length_eq, hpd.length_eq] at hlen
  exact hlen

/-- C8 witness: a run with one creditor and one debtor emits one
transaction, meeting the `1 + 1 - 1` bound. -/
theorem simplifyDebts_transaction_bound_witness :
    simplifyDebts 5 [⟨"a", alice, 0, 0, 2⟩, ⟨"b", bob, 0, 0, -2⟩] =
        some ([⟨bob, alice, 2⟩], [⟨"a", alice, 0, 0, 0⟩], [⟨"b", bob, 0, 0, 0⟩]) ∧
      ([⟨bob, alice, 2⟩] : List SettlementTransaction).length ≤
        (([⟨"a", alice, 0, 0, 2⟩, ⟨"b", bob, 0, 0, -2⟩] : List UserBalance).filter
          fun b => b.balance > 1/100).length +
        (([⟨"a", alice, 0, 0, 2⟩, ⟨"b", bob, 0, 0, -2⟩] : List UserBalance).filter
          fun b => b.balance < -(1/100)).length - 1 := by
  have hrun : simplifyDebts 5 [⟨"a", alice, 0, 0, 2⟩, ⟨"b", bob, 0, 0, -2⟩] =
      some ([⟨bob, alice, 2⟩], [⟨"a", alice, 0, 0, 0⟩], [⟨"b", bob, 0, 0, 0⟩]) := by
    norm_num [simplifyDebts, simplifyLoop, List.filter, List.insertionSort,
      List.orderedInsert, round2, alice, bob]
  exact ⟨hrun, simplifyDebts_transaction_bound 5 _ _ _ _ hrun⟩

/-- C10: if every participant appears at most once in the input balance
list (pairwise-distinct user ids), then no transaction returned by
`simplifyDebts` has the same participant as both payer and payee: payers
come from the debtor partition and payees from the creditor partition, and
no record can be in both. -/
theorem simplifyDebts_no_self_payment (fuel : Nat) (bs : List UserBalance)
    (hnd : (bs.map fun b => b.user.id).Nodup)
    (txs : List SettlementTransaction) (fcs fds : List UserBalance)
    (h : simplifyDebts fuel bs = some (txs, fcs, fds)) :
    ∀ t ∈ txs, t.from_.id ≠ t.to_.id := by
  simp only [simplifyDebts] at h
  intro t ht heq
  obtain ⟨hf, ht2⟩ := simplifyLoop_tx_users _ _ _ _ _ _ h t ht
  obtain ⟨d0, hd0, hdu⟩ := List.mem_map.mp hf
  obtain ⟨c0, hc0, hcu⟩ := List.mem_map.mp ht2
  have hd0m := (List.perm_insertionSort _ _).mem_iff.mp hd0
  have hc0m := (List.perm_insertionSort _ _).mem_iff.mp hc0
  obtain ⟨hd0bs, hd0p⟩ := List.mem_filter.mp hd0m
  obtain ⟨hc0bs, hc0p⟩ := List.mem_filter.mp hc0m
  have hd0pred : d0.balance < -(1/100) := by simpa using hd0p
  have hc0pred : c0.balance > 1/100 := by simpa using hc0p
  have hid : (fun b : UserBalance => b.user.id) d0 = (fun b : UserBalance => b.user.id) c0 := by
    show d0.user.id = c0.user.id
    rw [hdu, hcu]
    exact heq
  have hbeq : d0 = c0 := List.inj_on_of_nodup_map hnd hd0bs hc0bs hid
  rw [hbeq] at hd0pred
  linarith

/-- C10 witness: a concrete two-person run with pairwise-distinct ids whose
single transaction has distinct payer and payee. -/
theorem simplifyDebts_no_self_payment_witness :
    (([⟨"a", alice, 0, 0, 2⟩, ⟨"b", bob, 0, 0, -2⟩] :
        List UserBalance).map fun b => b.user.id).Nodup ∧
    simplifyDebts 5 [⟨"a", alice, 0, 0, 2⟩, ⟨"b", bob, 0, 0, -2⟩] =
        some ([⟨bob, alice, 2⟩], [⟨"a", alice, 0, 0, 0⟩], [⟨"b", bob, 0, 0, 0⟩]) ∧
    (∀ t ∈ ([⟨bob, alice, 2⟩] : List SettlementTransaction), t.from_.id ≠ t.to_.id) := by
  have hnd : (([⟨"a", alice, 0, 0, 2⟩, ⟨"b", bob, 0, 0, -2⟩] :
      List UserBalance).map fun b => b.user.id).Nodup := by
    simp [alice, bob]
  have hrun : simplifyDebts 5 [⟨"a", alice, 0, 0, 2⟩, ⟨"b", bob, 0, 0, -2⟩] =
      some ([⟨bob, alice, 2⟩], [⟨"a", alice, 0, 0, 0⟩], [⟨"b", bob, 0, 0, 0⟩]) := by
    norm_num [simplifyDebts, simplifyLoop, List.filter, List.insertionSort,
      List.orderedInsert, round2, alice, bob]
  exact ⟨hnd, hrun, simplifyDebts_no_self_payment 5 _ hnd _ _ _ hrun⟩

/-- C9 (amended): every transaction returned by `simplifyDebts` has a
strictly positive amount, and in fact amount at least `0.01`; the unrounded
settle amount always exceeds `0.01`, but the recorded rounded amount can be
exactly `0.01`, so amounts equal to the epsilon are emitted (see the
counterexample). -/
theorem simplifyDebts_amount_positive (fuel : Nat) (bs : List UserBalance)
    (txs : List SettlementTransaction) (fcs fds : List UserBalance)
    (h : simplifyDebts fuel bs = some (txs, fcs, fds)) :
    ∀ t ∈ txs, 0 < t.amount ∧ 1/100 ≤ t.amount := by
  simp only [simplifyDebts] at h
  intro t ht
  have hge := simplifyLoop_amount_lower _ _ _ _ _ _ h t ht
  exact ⟨by linarith, hge⟩

/-- C9 witness: a concrete run whose single transaction has a positive
amount. -/
theorem simplifyDebts_amount_positive_witness :
    simplifyDebts 5 [⟨"a", alice, 0, 0, 2⟩, ⟨"b", bob, 0, 0, -2⟩] =
        some ([⟨bob, alice, 2⟩], [⟨"a", alice, 0, 0, 0⟩], [⟨"b", bob, 0, 0, 0⟩]) ∧
    ∀ t ∈ ([⟨bob, alice, 2⟩] : List SettlementTransaction), 0 < t.amount ∧ 1/100 ≤ t.amount := by
  have hrun : simplifyDebts 5 [⟨"a", alice, 0, 0, 2⟩, ⟨"b", bob, 0, 0, -2⟩] =
      some ([⟨bob, alice, 2⟩], [⟨"a", alice, 0, 0, 0⟩], [⟨"b", bob, 0, 0, 0⟩]) := by
    norm_num [simplifyDebts, simplifyLoop, List.filter, List.insertionSort,
      List.orderedInsert, round2, alice, bob]
  exact ⟨hrun, simplifyDebts_amount_positive 5 _ _ _ _ hrun⟩

/-- C9 counterexample: on balances `[0.012, -0.012]` the emitted transaction
has amount exactly `0.01 = ε`, refuting the claim that no transaction with
amount at or below epsilon is ever emitted. -/
theorem simplifyDebts_amount_eq_epsilon :
    simplifyDebts 5 [⟨"a", alice, 0, 0, 3/250⟩, ⟨"b", bob, 0, 0, -(3/250)⟩] =
      some ([⟨bob, alice, 1/100⟩], [⟨"a", alice, 0, 0, 0⟩], [⟨"b", bob, 0, 0, 0⟩]) ∧
    ((1 : ℚ)/100 ≤ 1/100) := by
  constructor
  · norm_num [simplifyDebts, simplifyLoop, List.filter, List.insertionSort,
      List.orderedInsert, round2, alice, bob, abs_of_nonneg, abs_of_nonpos]
  · norm_num

/-- The greedy loop of the model is not total — this is why `simplifyLoop`
carries fuel.  On balances `[1.02, 1.00, -1.01, -1.01]` the first
iteration leaves the current creditor at exactly `0.01`: the settle amount
`min 0.01 1.01 = 0.01` is not `> 0.01`, so no transaction is emitted and
no mutation happens, and neither advance condition (`0.01 < 0.01`,
`1.01 < 0.01`) holds, so the cursors never move again and no amount of
fuel produces a result.  Whether the source's loop stalls on a given input
is decided by binary64 boundary behaviour at the `0.01` comparisons, which
exact rational arithmetic does not reproduce: under IEEE-754 doubles
`1.02 - 1.01` is slightly above `0.01`, so the source terminates on this
particular input even though the exact model does not. -/
theorem simplifyDebts_nonterminating_input :
    ∀ fuel : Nat, simplifyDebts fuel
      [⟨"a", alice, 0, 0, 51/50⟩, ⟨"b", bob, 0, 0, 1⟩,
        ⟨"c", carol, 0, 0, -(101/100)⟩, ⟨"d", dave, 0, 0, -(101/100)⟩] = none := by
  have hstep : ∀ n : Nat,
      simplifyLoop (n + 1) [⟨"a", alice, 0, 0, 1/100⟩, ⟨"b", bob, 0, 0, 1⟩]
          [⟨"d", dave, 0, 0, -(101/100)⟩] =
        (simplifyLoop n [⟨"a", alice, 0, 0, 1/100⟩, ⟨"b", bob, 0, 0, 1⟩]
          [⟨"d", dave, 0, 0, -(101/100)⟩]).map fun r => ([] ++ r.1, r.2.1, r.2.2) := by
    intro n
    norm_num [simplifyLoop, alice, bob, dave, abs_of_nonpos, abs_of_nonneg]
  have hstuck : ∀ n : Nat,
      simplifyLoop n [⟨"a", alice, 0, 0, 1/100⟩, ⟨"b", bob, 0, 0, 1⟩]
        [⟨"d", dave, 0, 0, -(101/100)⟩] = none := by
    intro n
    induction n with
    | zero => rfl
    | succ k ih =>
      rw [hstep k, ih]
      rfl
  have hinit : ∀ k : Nat,
      simplifyDebts (k + 1) [⟨"a", alice, 0, 0, 51/50⟩, ⟨"b", bob, 0, 0, 1⟩,
          ⟨"c", carol, 0, 0, -(101/100)⟩, ⟨"d", dave, 0, 0, -(101/100)⟩] =
        (simplifyLoop k [⟨"a", alice, 0, 0, 1/100⟩, ⟨"b", bob, 0, 0, 1⟩]
          [⟨"d", dave, 0, 0, -(101/100)⟩]).map
            fun r => ([⟨carol, alice, 101/100⟩] ++ r.1, r.2.1,
              (⟨"c", carol, 0, 0, 0⟩ : UserBalance) :: r.2.2) := by
    intro k
    norm_num [simplifyDebts, simplifyLoop, List.filter, List.insertionSort,
      List.orderedInsert, round2, alice, bob, carol, dave, abs_of_nonpos, abs_of_nonneg]
  intro fuel
  cases fuel with
  | zero =>
    norm_num [simplifyDebts, simplifyLoop, List.filter, List.insertionSort,
      List.orderedInsert, alice, bob, carol, dave]
  | succ k =>
    rw [hinit k, hstuck k]
    rfl

/-- C5: `simplifyDebts` mutates the caller's balance records.  On the input
records with balances `50` and `-50`, after the call the same records hold
balance `0` (the second and third components of the model's result are the
final states of the caller's creditor and debtor records; JavaScript
`filter` copies references, so lines 58-59 write through).  The record's
balance after the call, `0`, differs from its value `50` before the call. -/
theorem simplifyDebts_mutates_balances :
    simplifyDebts 5 [⟨"a", alice, 0, 0, 50⟩, ⟨"b", bob, 0, 0, -50⟩] =
      some ([⟨bob, alice, 50⟩], [⟨"a", alice, 0, 0, 0⟩], [⟨"b", bob, 0, 0, 0⟩]) ∧
    ((50 : ℚ) ≠ 0) := by
  constructor
  · norm_num [simplifyDebts, simplifyLoop, List.filter, List.insertionSort,
      List.orderedInsert, round2, alice, bob]
  · norm_num

/-! ## Balance-calculator helpers -/

theorem foldl_add_amount (l : List Expense) (a : ℚ) :
    l.foldl (fun sum e => sum + e.amount) a = a + (l.map fun e => e.amount).sum := by
  induction l generalizing a with
  | nil => simp
  | cons e l ih =>
    rw [List.foldl_cons, ih, List.map_cons, List.sum_cons]
    ring

/-- `computeBalances` on a non-empty member list is the member-wise map
giving each participant the rounded difference between what they paid and
the per-person share. -/
theorem computeBalances_eq (P : List User) (E : List Expense) (hP : P ≠ []) :
    computeBalances P E = P.map fun p =>
      { userId := p.id, user := p, totalPaid := totalPaidOf p E,
        share := totalAmount E / P.length,
        balance := round2 (totalPaidOf p E - totalAmount E / P.length) } := by
  have hpos : P.length > 0 := List.length_pos.mpr hP
  simp only [computeBalances, if_pos hpos]
  refine List.map_congr_left fun p hp => ?_
  have h1 : (E.filter fun e => e.paidBy.id = p.id).foldl (fun sum e => sum + e.amount) 0
      = totalPaidOf p E := by
    rw [foldl_add_amount, zero_add, totalPaidOf]
  have h2 : (E.foldl (fun sum e => sum + e.amount) (0:ℚ)) = totalAmount E := by
    rw [foldl_add_amount, zero_add, totalAmount]
  rw [h1, h2]

theorem sum_map_add (l : List User) (f g : User → ℚ) :
    (l.map fun p => f p + g p).sum = (l.map f).sum + (l.map g).sum := by
  induction l with
  | nil => simp
  | cons p l ih =>
    simp only [List.map_cons, List.sum_cons, ih]
    ring

theorem sum_map_le (l : List User) (f g : User → ℚ) (h : ∀ p ∈ l, f p ≤ g p) :
    (l.map f).sum ≤ (l.map g).sum := by
  induction l with
  | nil => simp
  | cons p l ih =>
    simp only [List.map_cons, List.sum_cons]
    have h1 := h p (by simp)
    have h2 := ih fun q hq => h q (List.mem_cons_of_mem _ hq)
    linarith

theorem sum_map_const (l : List User) (a : ℚ) :
    (l.map fun _ => a).sum = l.length * a := by
  induction l with
  | nil => simp
  | cons p l ih =>
    simp only [List.map_cons, List.sum_cons, List.length_cons, ih]
    push_cast
    ring

theorem abs_list_sum_le (l : List ℚ) : |l.sum| ≤ (l.map abs).sum := by
  induction l with
  | nil => simp
  | cons a l ih =>
    simp only [List.sum_cons, List.map_cons]
    calc |a + l.sum| ≤ |a| + |l.sum| := abs_add _ _
      _ ≤ |a| + (l.map abs).sum := by linarith

/-- The rounding error of `round2` is at most half a cent. -/
theorem round2_err (x : ℚ) : |round2 x - x| ≤ 1/200 := by
  have h1 : ((⌊x * 100 + 1/2⌋ : ℚ)) ≤ x * 100 + 1/2 := Int.floor_le _
  have h2 : x * 100 + 1/2 - 1 < (⌊x * 100 + 1/2⌋ : ℚ) := Int.sub_one_lt_floor _
  rw [round2, abs_le]
  constructor <;> nlinarith

theorem sum_if_single {P : List User} (hnd : (P.map fun p => p.id).Nodup)
    {c : String} (hc : c ∈ P.map fun p => p.id) (a : ℚ) :
    (P.map fun p => if c = p.id then a else 0).sum = a := by
  induction P with
  | nil => cases hc
  | cons p P ih =>
    simp only [List.map_cons, List.nodup_cons] at hnd
    obtain ⟨hp, hnd'⟩ := hnd
    rw [List.map_cons, List.mem_cons] at hc
    rw [List.map_cons, List.sum_cons]
    rcases hc with hc | hc
    · rw [if_pos hc]
      have hzero : (P.map fun q => if c = q.id then a else 0).sum = 0 := by
        refine List.sum_eq_zero fun x hx => ?_
        obtain ⟨q, hq, rfl⟩ := List.mem_map.mp hx
        rw [if_neg]
        intro hcq
        exact hp (by rw [← hc, hcq]; exact List.mem_map_of_mem _ hq)
      rw [hzero, add_zero]
    · have hne : ¬(c = p.id) := by
        intro hEq
        exact hp (hEq ▸ hc)
      rw [if_neg hne, zero_add]
      exact ih hnd' hc

/-- With pairwise-distinct participant ids and every payer resolving to a
participant, the participants' paid totals sum to the total cost. -/
theorem sum_totalPaid (P : List User) (hnd : (P.map fun p => p.id).Nodup)
    (E : List Expense) (hpayers : ∀ e ∈ E, ∃ p ∈ P, p.id = e.paidBy.id) :
    (P.map fun p => totalPaidOf p E).sum = totalAmount E := by
  induction E with
  | nil =>
    rw [totalAmount]
    simp only [List.map_nil, List.sum_nil]
    refine List.sum_eq_zero fun x hx => ?_
    obtain ⟨q, hq, rfl⟩ := List.mem_map.mp hx
    simp [totalPaidOf]
  | cons e E ih =>
    have hsplit : ∀ p : User, totalPaidOf p (e :: E) =
        (if e.paidBy.id = p.id then e.amount else 0) + totalPaidOf p E := by
      intro p
      by_cases hid : e.paidBy.id = p.id <;>
        simp [totalPaidOf, List.filter_cons, hid]
    have hstep : (P.map fun p => totalPaidOf p (e :: E)).sum =
        (P.map fun p => if e.paidBy.id = p.id then e.amount else 0).sum +
          (P.map fun p => totalPaidOf p E).sum := by
      rw [← sum_map_add]
      exact congrArg _ (List.map_congr_left fun p _ => hsplit p)
    have hc : e.paidBy.id ∈ P.map fun p => p.id := by
      obtain ⟨p, hp, hpe⟩ := hpayers e (by simp)
      exact hpe ▸ List.mem_map_of_mem _ hp
    rw [hstep, sum_if_single hnd hc,
      ih fun e' he' => hpayers e' (List.mem_cons_of_mem _ he')]
    simp [totalAmount]

/-- C3 (amended): for every non-empty participant list `P` and expense list
whose payers all resolve to members of `P`, the balance computation returns
exactly one balance per participant, in the order of `P`, and each
participant's balance value equals `round2 (totalPaid p - total / |P|)`,
where `round2` is the JavaScript `Math.round` semantics used by the code:
round half toward positive infinity, `⌊x * 100 + 1/2⌋ / 100` — not
round-half-away-from-zero and not banker's rounding, which both disagree
with the code on ties at negative values (see the counterexample). -/
theorem computeBalances_spec (P : List User) (E : List Expense) (hP : P ≠ [])
    (hpayers : ∀ e ∈ E, ∃ p ∈ P, p.id = e.paidBy.id) :
    computeBalances P E = P.map fun p =>
      { userId := p.id, user := p, totalPaid := totalPaidOf p E,
        share := totalAmount E / P.length,
        balance := round2 (totalPaidOf p E - totalAmount E / P.length) } :=
  computeBalances_eq P E hP

/-- C3 witness: the formula instantiated on two participants and one
expense of `0.03` paid by the first. -/
theorem computeBalances_spec_witness :
    (([alice, bob] : List User) ≠ []) ∧
    (∀ e ∈ ([⟨3/100, alice⟩] : List Expense), ∃ p ∈ [alice, bob], p.id = e.paidBy.id) ∧
    computeBalances [alice, bob] [⟨3/100, alice⟩] = ([alice, bob].map fun p =>
      { userId := p.id, user := p, totalPaid := totalPaidOf p [⟨3/100, alice⟩],
        share := totalAmount [⟨3/100, alice⟩] / (([alice, bob] : List User).length),
        balance := round2 (totalPaidOf p [⟨3/100, alice⟩] -
          totalAmount [⟨3/100, alice⟩] / (([alice, bob] : List User).length)) }) := by
  have hpayers : ∀ e ∈ ([⟨3/100, alice⟩] : List Expense),
      ∃ p ∈ [alice, bob], p.id = e.paidBy.id := by
    intro e he
    simp only [List.mem_singleton] at he
    subst he
    exact ⟨alice, by simp, rfl⟩
  exact ⟨by simp, hpayers, computeBalances_spec [alice, bob] _ (by simp) hpayers⟩

/-- C3 counterexample: with participants `[alice, bob]` and a single expense
of `0.03` paid by alice, bob's exact net is `-0.015`; the code rounds it to
`-0.01` (`Math.round` half toward positive infinity), while both rounding
modes the claim allows — half away from zero and banker's — give `-0.02`. -/
theorem computeBalances_rounding_counterexample :
    (computeBalances [alice, bob] [⟨3/100, alice⟩]).map (fun b => b.balance) =
      [2/100, -(1/100)] ∧
    roundAwayFromZero2 (totalPaidOf bob [⟨3/100, alice⟩] -
      totalAmount [⟨3/100, alice⟩] / (([alice, bob] : List User).length)) = -(2/100) ∧
    roundHalfEven2 (totalPaidOf bob [⟨3/100, alice⟩] -
      totalAmount [⟨3/100, alice⟩] / (([alice, bob] : List User).length)) = -(2/100) ∧
    (-(1:ℚ)/100 ≠ -(2/100)) := by
  refine ⟨?_, ?_, ?_, by norm_num⟩
  · simp [computeBalances, round2, alice, bob]
    norm_num
  · simp [roundAwayFromZero2, totalPaidOf, totalAmount, alice, bob]
    norm_num
  · simp [roundHalfEven2, totalPaidOf, totalAmount, alice, bob]
    norm_num [Int.fract]

/-- C6 (amended): on an empty participant list the balance computation does
not fail: the `memberCount > 0` guard of line 165 sets the per-person share
to `0` and the map over the empty member list returns the empty balance
list. -/
theorem computeBalances_empty_participants (E : List Expense) :
    computeBalances [] E = [] := rfl

/-- C6 counterexample: with no participants and one expense the computation
returns the (empty) balance list — it produces an output rather than
failing with an `InvalidInput` condition, contrary to the claim. -/
theorem computeBalances_empty_counterexample :
    computeBalances [] [⟨5, bob⟩] = [] := rfl

/-- C7: with participants `[alice]` and a single expense of `5` paid by
`bob`, who is not a participant, `computeBalances` counts the `5` toward
the total cost (share `5`) while attributing the paid amount to nobody
(alice's `totalPaid` is `0`), yielding balance `-5`.  The code silently
corrupts the zero-sum invariant instead of failing with `InvalidInput` as
the claim states. -/
theorem computeBalances_unknown_payer :
    computeBalances [alice] [⟨5, bob⟩] = [⟨"a", alice, 0, 5, -5⟩] := by
  simp [computeBalances, round2, alice, bob]
  norm_num

/-- C2 (amended): for every non-empty participant list with
pairwise-distinct ids and every expense list whose payers all resolve to
participants, the balances returned by the computation sum to zero within
`0.01` per participant count (the only deviation from exact zero is the
per-participant rounding of at most half a cent). -/
theorem computeBalances_zero_sum (P : List User) (E : List Expense)
    (hP : P ≠ []) (hnd : (P.map fun p => p.id).Nodup)
    (hpayers : ∀ e ∈ E, ∃ p ∈ P, p.id = e.paidBy.id) :
    |sumBal (computeBalances P E)| ≤ 1/100 * P.length := by
  rw [computeBalances_eq P E hP, sumBal, List.map_map]
  show |(P.map fun p => round2 (totalPaidOf p E - totalAmount E / P.length)).sum| ≤
    1/100 * P.length
  have hdecomp : (P.map fun p => round2 (totalPaidOf p E - totalAmount E / P.length)).sum =
      (P.map fun p => totalPaidOf p E - totalAmount E / P.length).sum +
      (P.map fun p => round2 (totalPaidOf p E - totalAmount E / P.length) -
        (totalPaidOf p E - totalAmount E / P.length)).sum := by
    rw [← sum_map_add]
    exact congrArg _ (List.map_congr_left fun p _ => by ring)
  have hzero : (P.map fun p => totalPaidOf p E - totalAmount E / P.length).sum = 0 := by
    have hsub : (P.map fun p => totalPaidOf p E - totalAmount E / P.length).sum =
        (P.map fun p => totalPaidOf p E).sum +
        (P.map fun _ => -(totalAmount E / P.length)).sum := by
      rw [← sum_map_add]
      exact congrArg _ (List.map_congr_left fun p _ => by ring)
    rw [hsub, sum_totalPaid P hnd E hpayers, sum_map_const]
    have hn : (P.length : ℚ) ≠ 0 := by
      have hp := List.length_pos.mpr hP
      exact_mod_cast hp.ne'
    field_simp
    ring
  rw [hdecomp, hzero, zero_add]
  calc |(P.map fun p => round2 (totalPaidOf p E - totalAmount E / P.length) -
          (totalPaidOf p E - totalAmount E / P.length)).sum|
      ≤ ((P.map fun p => round2 (totalPaidOf p E - totalAmount E / P.length) -
          (totalPaidOf p E - totalAmount E / P.length)).map abs).sum := abs_list_sum_le _
    _ = (P.map fun p => |round2 (totalPaidOf p E - totalAmount E / P.length) -
          (totalPaidOf p E - totalAmount E / P.length)|).sum := by
        rw [List.map_map]
        rfl
    _ ≤ (P.map fun _ => (1/200 : ℚ)).sum := sum_map_le _ _ _ fun p _ => round2_err _
    _ = P.length * (1/200) := sum_map_const _ _
    _ ≤ 1/100 * P.length := by
        have hp : (0:ℚ) ≤ P.length := by positivity
        linarith

/-- C2 witness: two participants, one expense of `0.03`; the balance sum is
`0.02 - 0.01 = 0.01`, within `0.01 * 2`. -/
theorem computeBalances_zero_sum_witness :
    (([alice, bob] : List User) ≠ []) ∧
    ((([alice, bob] : List User).map fun p => p.id).Nodup) ∧
    (∀ e ∈ ([⟨3/100, alice⟩] : List Expense), ∃ p ∈ [alice, bob], p.id = e.paidBy.id) ∧
    |sumBal (computeBalances [alice, bob] [⟨3/100, alice⟩])| ≤
      1/100 * (([alice, bob] : List User).length) := by
  have hpayers : ∀ e ∈ ([⟨3/100, alice⟩] : List Expense),
      ∃ p ∈ [alice, bob], p.id = e.paidBy.id := by
    intro e he
    simp only [List.mem_singleton] at he
    subst he
    exact ⟨alice, by simp, rfl⟩
  exact ⟨by simp, by simp [alice, bob], hpayers,
    computeBalances_zero_sum _ _ (by simp) (by simp [alice, bob]) hpayers⟩

/-- C2 counterexample: with participant list `[alice]` and one expense paid
by the non-participant `bob`, the balance list is `[-5]`, whose sum `-5` is
far outside `0.01` per participant: the claim is false for arbitrary
expense lists. -/
theorem computeBalances_zero_sum_counterexample :
    ¬ (|sumBal (computeBalances [alice] [⟨5, bob⟩])| ≤
        1/100 * (([alice] : List User).length)) := by
  simp [computeBalances, sumBal, round2, alice, bob]
  norm_num

theorem sumBal_nonpos {l : List UserBalance} (h0 : ∀ y ∈ l, y.balance ≤ 0) :
    sumBal l ≤ 0 := by
  induction l with
  | nil => simp
  | cons y l ih =>
    have hy := h0 y (by simp)
    have := ih fun w hw => h0 w (List.mem_cons_of_mem _ hw)
    simp only [sumBal_cons]
    linarith

theorem sumBal_le_of_mem {l : List UserBalance} {x : UserBalance}
    (h0 : ∀ y ∈ l, y.balance ≤ 0) (hx : x ∈ l) : sumBal l ≤ x.balance := by
  induction l with
  | nil => cases hx
  | cons y l ih =>
    rcases List.mem_cons.mp hx with rfl | hx
    · have : sumBal l ≤ 0 := sumBal_nonpos fun w hw => h0 w (List.mem_cons_of_mem _ hw)
      simp only [sumBal_cons]
      linarith
    · have := ih (fun w hw => h0 w (List.mem_cons_of_mem _ hw)) hx
      have hy := h0 y (by simp)
      simp only [sumBal_cons]
      linarith

/-- C1 (amended): take a balance list of whole-cent values with
pairwise-distinct users, whose creditor and debtor entries (those beyond
one cent of zero) sum to within one cent of zero — as the balance
calculator produces on consistent data — and on which the greedy loop
terminates.  Then applying every returned transaction (each settling its
amount between payer and payee) leaves every participant's balance within
`0.01` of zero. -/
theorem simplifyDebts_settles (fuel : Nat) (bs : List UserBalance)
    (hcent : ∀ b ∈ bs, centMultiple b.balance)
    (hnd : (bs.map fun b => b.user).Nodup)
    (hsum : |sumBal (bs.filter fun b => b.balance > 1/100) +
      sumBal (bs.filter fun b => b.balance < -(1/100))| ≤ 1/100)
    (txs : List SettlementTransaction) (fcs fds : List UserBalance)
    (hrun : simplifyDebts fuel bs = some (txs, fcs, fds)) :
    ∀ b ∈ applyTransactions bs txs, |b.balance| ≤ 1/100 := by
  simp only [simplifyDebts] at hrun
  have hpc := List.perm_insertionSort (fun a b : UserBalance => b.balance ≤ a.balance)
    (bs.filter fun b => b.balance > 1/100)
  have hpd := List.perm_insertionSort (fun a b : UserBalance => a.balance ≤ b.balance)
    (bs.filter fun b => b.balance < -(1/100))
  -- membership characterisations of the sorted partitions
  have hmemC : ∀ b : UserBalance,
      b ∈ List.insertionSort (fun a b : UserBalance => b.balance ≤ a.balance)
        (bs.filter fun x => x.balance > 1/100) ↔ b ∈ bs ∧ b.balance > 1/100 := by
    intro b
    rw [hpc.mem_iff, List.mem_filter]
    simp
  have hmemD : ∀ b : UserBalance,
      b ∈ List.insertionSort (fun a b : UserBalance => a.balance ≤ b.balance)
        (bs.filter fun x => x.balance < -(1/100)) ↔ b ∈ bs ∧ b.balance < -(1/100) := by
    intro b
    rw [hpd.mem_iff, List.mem_filter]
    simp
  -- sign and cent facts for the loop lemmas
  have hcsign : ∀ b ∈ List.insertionSort (fun a b : UserBalance => b.balance ≤ a.balance)
      (bs.filter fun x => x.balance > 1/100), 0 ≤ b.balance := by
    intro b hb
    have := ((hmemC b).mp hb).2
    linarith
  have hdsign : ∀ b ∈ List.insertionSort (fun a b : UserBalance => a.balance ≤ b.balance)
      (bs.filter fun x => x.balance < -(1/100)), b.balance ≤ 0 := by
    intro b hb
    have := ((hmemD b).mp hb).2
    linarith
  have hccent : ∀ b ∈ List.insertionSort (fun a b : UserBalance => b.balance ≤ a.balance)
      (bs.filter fun x => x.balance > 1/100), centMultiple b.balance :=
    fun b hb => hcent b ((hmemC b).mp hb).1
  have hdcent : ∀ b ∈ List.insertionSort (fun a b : UserBalance => a.balance ≤ b.balance)
      (bs.filter fun x => x.balance < -(1/100)), centMultiple b.balance :=
    fun b hb => hcent b ((hmemD b).mp hb).1
  -- distinct users across the two sorted partitions
  have husers_inj : ∀ x ∈ bs, ∀ y ∈ bs, x.user = y.user → x = y := by
    intro x hx y hy hxy
    exact List.inj_on_of_nodup_map hnd hx hy hxy
  have hndCD :
      ((List.insertionSort (fun a b : UserBalance => b.balance ≤ a.balance)
          (bs.filter fun x => x.balance > 1/100)).map (fun b => b.user) ++
        (List.insertionSort (fun a b : UserBalance => a.balance ≤ b.balance)
          (bs.filter fun x => x.balance < -(1/100))).map (fun b => b.user)).Nodup := by
    rw [List.nodup_append]
    refine ⟨?_, ?_, ?_⟩
    · refine (hpc.map (fun b => b.user)).symm.nodup ?_
      exact ((List.filter_sublist bs).map (fun b => b.user)).nodup hnd
    · refine (hpd.map (fun b => b.user)).symm.nodup ?_
      exact ((List.filter_sublist bs).map (fun b => b.user)).nodup hnd
    · intro u hu1 hu2
      obtain ⟨c0, hc0, rfl⟩ := List.mem_map.mp hu1
      obtain ⟨d0, hd0, hud⟩ := List.mem_map.mp hu2
      obtain ⟨hc0bs, hc0p⟩ := (hmemC c0).mp hc0
      obtain ⟨hd0bs, hd0p⟩ := (hmemD d0).mp hd0
      have : d0 = c0 := husers_inj d0 hd0bs c0 hc0bs hud
      rw [this] at hd0p
      linarith
  -- the four loop lemmas
  obtain ⟨_, hfcs_sign, hfds_sign, hsum_pres⟩ :=
    simplifyLoop_main fuel _ _ _ _ _ hrun hcsign hdsign
  obtain ⟨hfcs_cent, hfds_cent, hdisj⟩ :=
    simplifyLoop_cent fuel _ _ _ _ _ hrun hcsign hdsign hccent hdcent
  obtain ⟨hF, hG⟩ := simplifyLoop_final fuel _ _ _ _ _ hrun hccent hdcent hndCD
  have husers := simplifyLoop_tx_users fuel _ _ _ _ _ hrun
  -- no transaction is a self-payment
  have hne : ∀ t ∈ txs, t.from_ ≠ t.to_ := by
    intro t ht heq
    obtain ⟨hf, ht2⟩ := husers t ht
    obtain ⟨d0, hd0, hud⟩ := List.mem_map.mp hf
    obtain ⟨c0, hc0, huc⟩ := List.mem_map.mp ht2
    obtain ⟨hc0bs, hc0p⟩ := (hmemC c0).mp hc0
    obtain ⟨hd0bs, hd0p⟩ := (hmemD d0).mp hd0
    have heq2 : d0 = c0 := by
      refine husers_inj d0 hd0bs c0 hc0bs ?_
      rw [hud, huc, heq]
    rw [heq2] at hd0p
    linarith
  -- the balance sum over both partitions
  have hS : sumBal (List.insertionSort (fun a b : UserBalance => b.balance ≤ a.balance)
        (bs.filter fun x => x.balance > 1/100)) +
      sumBal (List.insertionSort (fun a b : UserBalance => a.balance ≤ b.balance)
        (bs.filter fun x => x.balance < -(1/100))) =
      sumBal (bs.filter fun b => b.balance > 1/100) +
        sumBal (bs.filter fun b => b.balance < -(1/100)) := by
    rw [sumBal_perm hpc, sumBal_perm hpd]
  rw [applyTransactions_eq_map bs txs hne]
  intro b' hb'
  obtain ⟨b, hbmem, rfl⟩ := List.mem_map.mp hb'
  show |b.balance + netTransfer b.user txs| ≤ 1/100
  by_cases hgt : (1:ℚ)/100 < b.balance
  · -- creditor entry
    have hbC : b ∈ List.insertionSort (fun a b : UserBalance => b.balance ≤ a.balance)
        (bs.filter fun x => x.balance > 1/100) := (hmemC b).mpr ⟨hbmem, hgt⟩
    have hmemf : ({ b with balance := b.balance + netTransfer b.user txs } : UserBalance)
        ∈ fcs := by
      rw [hF]
      exact List.mem_map_of_mem _ hbC
    have hnn : (0:ℚ) ≤ b.balance + netTransfer b.user txs := hfcs_sign _ hmemf
    have hub : b.balance + netTransfer b.user txs ≤ 1/100 := by
      rcases hdisj with hzc | hzd
      · have := hzc _ hmemf
        simp only at this
        rw [this]
        norm_num
      · have hfds0 : sumBal fds = 0 := sumBal_of_all_zero hzd
        have hsum2 : sumBal fcs = sumBal (bs.filter fun b => b.balance > 1/100) +
            sumBal (bs.filter fun b => b.balance < -(1/100)) := by
          rw [← hS]
          linarith
        have hle : b.balance + netTransfer b.user txs ≤ sumBal fcs := by
          have := le_sumBal_of_mem hfcs_sign hmemf
          simpa using this
        have habs := le_abs_self (sumBal (bs.filter fun b => b.balance > 1/100) +
          sumBal (bs.filter fun b => b.balance < -(1/100)))
        linarith
    rw [abs_of_nonneg hnn]
    exact hub
  · by_cases hlt : b.balance < -(1/100)
    · -- debtor entry
      have hbD : b ∈ List.insertionSort (fun a b : UserBalance => a.balance ≤ b.balance)
          (bs.filter fun x => x.balance < -(1/100)) := (hmemD b).mpr ⟨hbmem, hlt⟩
      have hmemf : ({ b with balance := b.balance + netTransfer b.user txs } : UserBalance)
          ∈ fds := by
        rw [hG]
        exact List.mem_map_of_mem _ hbD
      have hnp : b.balance + netTransfer b.user txs ≤ 0 := hfds_sign _ hmemf
      have hlb : -(1/100) ≤ b.balance + netTransfer b.user txs := by
        rcases hdisj with hzc | hzd
        · have hfcs0 : sumBal fcs = 0 := sumBal_of_all_zero hzc
          have hsum2 : sumBal fds = sumBal (bs.filter fun b => b.balance > 1/100) +
              sumBal (bs.filter fun b => b.balance < -(1/100)) := by
            rw [← hS]
            linarith
          have hge : sumBal fds ≤ b.balance + netTransfer b.user txs := by
            have := sumBal_le_of_mem hfds_sign hmemf
            simpa using this
          have habs := neg_abs_le (sumBal (bs.filter fun b => b.balance > 1/100) +
            sumBal (bs.filter fun b => b.balance < -(1/100)))
          linarith
        · have := hzd _ hmemf
          simp only at this
          rw [this]
          norm_num
      rw [abs_of_nonpos hnp]
      linarith
    · -- already-settled entry: it takes part in no transaction
      push_neg at hgt hlt
      have hz : netTransfer b.user txs = 0 := by
        refine netTransfer_eq_zero fun t ht => ?_
        obtain ⟨hf, ht2⟩ := husers t ht
        constructor
        · intro heq
          obtain ⟨d0, hd0, hud⟩ := List.mem_map.mp hf
          obtain ⟨hd0bs, hd0p⟩ := (hmemD d0).mp hd0
          have : d0 = b := husers_inj d0 hd0bs b hbmem (by rw [hud, heq])
          rw [this] at hd0p
          linarith
        · intro heq
          obtain ⟨c0, hc0, huc⟩ := List.mem_map.mp ht2
          obtain ⟨hc0bs, hc0p⟩ := (hmemC c0).mp hc0
          have : c0 = b := husers_inj c0 hc0bs b hbmem (by rw [huc, heq])
          rw [this] at hc0p
          linarith
      rw [hz, add_zero, abs_le]
      constructor <;> linarith

/-- C1 witness: balances `[0.5, -0.5]` (whole cents, distinct users,
partitions summing to zero); the loop emits one transaction of `0.5` and
applying it zeroes both balances. -/
theorem simplifyDebts_settles_witness :
    (∀ b ∈ ([⟨"a", alice, 0, 0, 1/2⟩, ⟨"b", bob, 0, 0, -(1/2)⟩] : List UserBalance),
      centMultiple b.balance) ∧
    ((([⟨"a", alice, 0, 0, 1/2⟩, ⟨"b", bob, 0, 0, -(1/2)⟩] : List UserBalance).map
      fun b => b.user).Nodup) ∧
    (|sumBal (([⟨"a", alice, 0, 0, 1/2⟩, ⟨"b", bob, 0, 0, -(1/2)⟩] :
        List UserBalance).filter fun b => b.balance > 1/100) +
      sumBal (([⟨"a", alice, 0, 0, 1/2⟩, ⟨"b", bob, 0, 0, -(1/2)⟩] :
        List UserBalance).filter fun b => b.balance < -(1/100))| ≤ 1/100) ∧
    simplifyDebts 3 [⟨"a", alice, 0, 0, 1/2⟩, ⟨"b", bob, 0, 0, -(1/2)⟩] =
      some ([⟨bob, alice, 1/2⟩], [⟨"a", alice, 0, 0, 0⟩], [⟨"b", bob, 0, 0, 0⟩]) ∧
    (∀ b ∈ applyTransactions [⟨"a", alice, 0, 0, 1/2⟩, ⟨"b", bob, 0, 0, -(1/2)⟩]
      [⟨bob, alice, 1/2⟩], |b.balance| ≤ 1/100) := by
  have hcent : ∀ b ∈ ([⟨"a", alice, 0, 0, 1/2⟩, ⟨"b", bob, 0, 0, -(1/2)⟩] :
      List UserBalance), centMultiple b.balance := by
    intro b hb
    rcases List.mem_cons.mp hb with rfl | hb
    · exact ⟨50, by norm_num⟩
    rcases List.mem_cons.mp hb with rfl | hb
    · exact ⟨-50, by norm_num⟩
    · cases hb
  have hnd : ((([⟨"a", alice, 0, 0, 1/2⟩, ⟨"b", bob, 0, 0, -(1/2)⟩] :
      List UserBalance).map fun b => b.user).Nodup) := by
    simp [alice, bob]
  have hsum : |sumBal (([⟨"a", alice, 0, 0, 1/2⟩, ⟨"b", bob, 0, 0, -(1/2)⟩] :
        List UserBalance).filter fun b => b.balance > 1/100) +
      sumBal (([⟨"a", alice, 0, 0, 1/2⟩, ⟨"b", bob, 0, 0, -(1/2)⟩] :
        List UserBalance).filter fun b => b.balance < -(1/100))| ≤ 1/100 := by
    norm_num [List.filter, sumBal]
  have hrun : simplifyDebts 3 [⟨"a", alice, 0, 0, 1/2⟩, ⟨"b", bob, 0, 0, -(1/2)⟩] =
      some ([⟨bob, alice, 1/2⟩], [⟨"a", alice, 0, 0, 0⟩], [⟨"b", bob, 0, 0, 0⟩]) := by
    norm_num [simplifyDebts, simplifyLoop, List.filter, List.insertionSort,
      List.orderedInsert, round2, alice, bob, abs_of_nonneg, abs_of_nonpos]
  exact ⟨hcent, hnd, hsum, hrun,
    simplifyDebts_settles 3 _ hcent hnd hsum _ _ _ hrun⟩

/-- C1 counterexample: the balances `[0.02, 0.014, -0.029]` sum to `0.005`,
within epsilon of zero, and the loop terminates after emitting one
transaction (`0.02` from carol to alice).  Applying every returned
transaction leaves bob's untouched balance at `0.014`, which is not within
`0.01` of zero, so the claim as stated is false. -/
theorem simplifyDebts_settles_counterexample :
    |sumBal [⟨"a", alice, 0, 0, 1/50⟩, ⟨"b", bob, 0, 0, 7/500⟩,
      ⟨"c", carol, 0, 0, -(29/1000)⟩]| ≤ 1/100 ∧
    simplifyDebts 5 [⟨"a", alice, 0, 0, 1/50⟩, ⟨"b", bob, 0, 0, 7/500⟩,
        ⟨"c", carol, 0, 0, -(29/1000)⟩] =
      some ([⟨carol, alice, 1/50⟩],
        [⟨"a", alice, 0, 0, 0⟩, ⟨"b", bob, 0, 0, 7/500⟩],
        [⟨"c", carol, 0, 0, -(9/1000)⟩]) ∧
    ¬ (∀ b ∈ applyTransactions
        [⟨"a", alice, 0, 0, 1/50⟩, ⟨"b", bob, 0, 0, 7/500⟩,
          ⟨"c", carol, 0, 0, -(29/1000)⟩]
        [⟨carol, alice, 1/50⟩], |b.balance| ≤ 1/100) := by
  have happ : applyTransactions
      [⟨"a", alice, 0, 0, 1/50⟩, ⟨"b", bob, 0, 0, 7/500⟩,
        ⟨"c", carol, 0, 0, -(29/1000)⟩] [⟨carol, alice, 1/50⟩] =
      [⟨"a", alice, 0, 0, 0⟩, ⟨"b", bob, 0, 0, 7/500⟩,
        ⟨"c", carol, 0, 0, -(9/1000)⟩] := by
    simp [applyTransactions, applyTransaction, alice, bob, carol]
    norm_num
  refine ⟨?_, ?_, ?_⟩
  · norm_num [sumBal, abs_le]
  · norm_num [simplifyDebts, simplifyLoop, List.filter, List.insertionSort,
      List.orderedInsert, round2, alice, bob, carol, abs_of_nonpos, abs_of_nonneg]
  · intro hall
    have hb := hall ⟨"b", bob, 0, 0, 7/500⟩ (by rw [happ]; simp)
    norm_num [abs_le] at hb

end TripSplit
